import Mathlib

/-!
The package go-universal/cache: the in-memory backend, the rate limiter and the verification
codes.

A shallow embedding of `cache_mem.go`, `limiter.go`, `verification.go`, `queue_redis.go`, the
key mapping of `cache_redis.go` and `utils.go`.

* The Go map `map[string]memRecord` is a function `String → Option memRecord`.
* Instants (`time.Time`) and durations (`time.Duration`) are integers counting nanoseconds.
  A call reads the clock once and that reading is its argument `now`; `TTL`, which reads it a
  second time in `time.Until`, takes both readings.
* `int64` arithmetic wraps modulo `2^64` (`wrapInt64`), `uint32` arithmetic modulo `2^32`
  (`wrapUint32`); the Go type `int` is taken to be 64 bits wide.
* A Go result `(x, error)` is a pair whose second component is `none` for a `nil` error; the
  cache after the call is returned next to it.
* The package `github.com/go-universal/cast` is not part of the sources.  Its conversions of the
  integer kinds are by value, a stored string reads back as itself; what it does with every
  other dynamic value is the parameter `CastLib`.
* The Redis server is not part of the sources: the list commands `LPUSH`, `LPOP` and `RPOP` act
  on the list stored under the key of the queue, and the connection does not fail.
* The random source of `randomString` is the sequence `draws` of its outcomes, and `letters` is
  indexed by character (the only caller passes the ASCII digits).
-/

namespace Cache

/-- Instants, in nanoseconds. -/
abbrev Time := Int

/-- Values of `time.Duration` (nanoseconds, possibly negative). -/
abbrev Duration := Int

/-- Two's complement reduction into the range of `int64`. -/
def wrapInt64 (x : Int) : Int := (x + 2 ^ 63) % 2 ^ 64 - 2 ^ 63

/-- Reduction into the range of `uint32`, the Go conversion `uint32(x)`. -/
def wrapUint32 (x : Int) : Nat := (x % 2 ^ 32).toNat

/-- The dynamic values (`any`) that the repository stores. -/
inductive Value where
  | nil
  | int (n : Int)
  | int64 (n : Int)
  | uint32 (n : Nat)
  | float64 (x : Float)
  | string (s : String)

/-- Errors: `errors.New("value is not numeric")` of `cache_mem.go`, and the errors returned by
the conversions of the `cast` package. -/
inductive Error where
  | notNumeric
  | cast
  deriving DecidableEq, Repr

/-- What the external `cast` package makes of the values that are not of an integer kind
(`none`: the conversion returns an error), and for `string` of the values that are not strings. -/
structure CastLib where
  int : Value → Option Int
  int64 : Value → Option Int
  float64 : Value → Option Float
  string : Value → Option String

/-- The Go type `string`. -/
abbrev GoString := String

/-- The value wrapped by `cast.NewCaster`. -/
structure Caster where
  data : Value

/-- Embedding of `cast.NewCaster`. -/
def NewCaster (data : Value) : Caster := ⟨data⟩

/-- Embedding of `Caster.IsNil`: the wrapped value is `nil`. -/
def Caster.IsNil (c : Caster) : Bool :=
  match c.data with
  | Value.nil => true
  | _ => false

/-- Embedding of `Caster.Int64`: integer kinds convert by value. -/
def Caster.Int64 (lib : CastLib) (c : Caster) : Except Error Int :=
  match c.data with
  | Value.int n => Except.ok n
  | Value.int64 n => Except.ok n
  | Value.uint32 n => Except.ok (n : Int)
  | v =>
    match lib.int64 v with
    | some n => Except.ok n
    | none => Except.error Error.cast

/-- Embedding of `Caster.Int`: integer kinds convert by value (64-bit `int`). -/
def Caster.Int (lib : CastLib) (c : Caster) : Except Error ℤ :=
  match c.data with
  | Value.int n => Except.ok n
  | Value.int64 n => Except.ok n
  | Value.uint32 n => Except.ok (n : ℤ)
  | v =>
    match lib.int v with
    | some n => Except.ok n
    | none => Except.error Error.cast

/-- Embedding of `Caster.Float64`: a stored `float64` converts to itself. -/
def Caster.Float64 (lib : CastLib) (c : Caster) : Except Error Float :=
  match c.data with
  | Value.float64 x => Except.ok x
  | v =>
    match lib.float64 v with
    | some x => Except.ok x
    | none => Except.error Error.cast

/-- Embedding of `Caster.String`: a stored string converts to itself. -/
def Caster.String (lib : CastLib) (c : Caster) : Except Error GoString :=
  match c.data with
  | Value.string s => Except.ok s
  | v =>
    match lib.string v with
    | some s => Except.ok s
    | none => Except.error Error.cast

/-- A `cast` package that converts nothing but the integer kinds (and stored floats and
strings). -/
def strictCast : CastLib := ⟨fun _ => none, fun _ => none, fun _ => none, fun _ => none⟩

/-- Embedding of `memRecord`: the data and the optional expiry of one entry. -/
structure memRecord where
  data : Value
  expiry : Option Time

/-- Embedding of `memCache`: the map from keys to records. -/
structure memCache where
  data : String → Option memRecord

/-- The map assignment `d[key] = r`. -/
def mapSet (d : String → Option memRecord) (key : String) (r : memRecord) :
    String → Option memRecord :=
  fun k => if k = key then some r else d k

/-- The map deletion `delete(d, key)`. -/
def mapDelete (d : String → Option memRecord) (key : String) : String → Option memRecord :=
  fun k => if k = key then none else d k

/-- Embedding of `NewMemoryCache`. -/
def NewMemoryCache : memCache := ⟨fun _ => none⟩

/-- Embedding of `memCache.Put`. -/
def memCache.Put (m : memCache) (key : String) (value : Value) (ttl : Option Duration)
    (now : Time) : Option Error × memCache :=
  let expiry : Option Time :=
    match ttl with
    | some d => some (now + d)
    | none => none
  (none, ⟨mapSet m.data key ⟨value, expiry⟩⟩)

/-- Embedding of `memCache.read`: an entry whose expiry is before `now` is deleted and
reported missing. -/
def memCache.read (m : memCache) (key : String) (now : Time) : Option memRecord × memCache :=
  match m.data key with
  | none => (none, m)
  | some val =>
    match val.expiry with
    | some e => if e < now then (none, ⟨mapDelete m.data key⟩) else (some val, m)
    | none => (some val, m)

/-- Embedding of `memCache.Update`. -/
def memCache.Update (m : memCache) (key : String) (value : Value) (now : Time) :
    (Bool × Option Error) × memCache :=
  match m.read key now with
  | (none, m1) => ((false, none), m1)
  | (some record, m1) => ((true, none), ⟨mapSet m1.data key ⟨value, record.expiry⟩⟩)

/-- Embedding of `memCache.Get`. -/
def memCache.Get (m : memCache) (key : String) (now : Time) :
    (Value × Option Error) × memCache :=
  match m.read key now with
  | (none, m1) => ((Value.nil, none), m1)
  | (some record, m1) => ((record.data, none), m1)

/-- Embedding of `memCache.Cast`. -/
def memCache.Cast (m : memCache) (key : String) (now : Time) :
    (Caster × Option Error) × memCache :=
  match m.Get key now with
  | ((val, err), m1) => ((NewCaster val, err), m1)

/-- Embedding of `memCache.Exists`. -/
def memCache.Exists (m : memCache) (key : String) (now : Time) :
    (Bool × Option Error) × memCache :=
  match m.read key now with
  | (none, m1) => ((false, none), m1)
  | (some _, m1) => ((true, none), m1)

/-- Embedding of `memCache.Forget`. -/
def memCache.Forget (m : memCache) (key : String) : Option Error × memCache :=
  (none, ⟨mapDelete m.data key⟩)

/-- Embedding of `memCache.modifyNumericValue`. -/
def memCache.modifyNumericValue (lib : CastLib) (m : memCache) (key : String) (value : Int)
    (op : Int → Int → Int) (now : Time) : (Bool × Option Error) × memCache :=
  match m.read key now with
  | (none, m1) => ((false, none), m1)
  | (some record, m1) =>
    match Caster.Int64 lib (NewCaster record.data) with
    | Except.error _ => ((false, some Error.notNumeric), m1)
    | Except.ok num =>
      ((true, none), ⟨mapSet m1.data key ⟨Value.int64 (op num value), record.expiry⟩⟩)

/-- Embedding of `memCache.modifyFloatValue`. -/
def memCache.modifyFloatValue (lib : CastLib) (m : memCache) (key : String) (value : Float)
    (op : Float → Float → Float) (now : Time) : (Bool × Option Error) × memCache :=
  match m.read key now with
  | (none, m1) => ((false, none), m1)
  | (some record, m1) =>
    match Caster.Float64 lib (NewCaster record.data) with
    | Except.error _ => ((false, some Error.notNumeric), m1)
    | Except.ok num =>
      ((true, none), ⟨mapSet m1.data key ⟨Value.float64 (op num value), record.expiry⟩⟩)

/-- Embedding of `memCache.Increment`: `a + b` on `int64`. -/
def memCache.Increment (lib : CastLib) (m : memCache) (key : String) (value : Int)
    (now : Time) : (Bool × Option Error) × memCache :=
  m.modifyNumericValue lib key value (fun a b => wrapInt64 (a + b)) now

/-- Embedding of `memCache.Decrement`: `a - b` on `int64`. -/
def memCache.Decrement (lib : CastLib) (m : memCache) (key : String) (value : Int)
    (now : Time) : (Bool × Option Error) × memCache :=
  m.modifyNumericValue lib key value (fun a b => wrapInt64 (a - b)) now

/-- Embedding of `memCache.IncrementFloat`. -/
def memCache.IncrementFloat (lib : CastLib) (m : memCache) (key : String) (value : Float)
    (now : Time) : (Bool × Option Error) × memCache :=
  m.modifyFloatValue lib key value (fun a b => a + b) now

/-- Embedding of `memCache.DecrementFloat`. -/
def memCache.DecrementFloat (lib : CastLib) (m : memCache) (key : String) (value : Float)
    (now : Time) : (Bool × Option Error) × memCache :=
  m.modifyFloatValue lib key value (fun a b => a - b) now

/-- The largest and smallest values of `time.Duration`, at which `Time.Sub` saturates. -/
def satDuration (x : Int) : Duration := max (-(2 ^ 63)) (min x (2 ^ 63 - 1))

/-- Embedding of `memCache.TTL`.  The clock is read twice: by `read` (`now`) and afterwards by
`time.Until` (`later`); `math.MaxInt64` stands for "no expiry". -/
def memCache.TTL (m : memCache) (key : String) (now later : Time) :
    (Duration × Option Error) × memCache :=
  match m.read key now with
  | (none, m1) => ((0, none), m1)
  | (some record, m1) =>
    match record.expiry with
    | none => ((2 ^ 63 - 1, none), m1)
    | some e => ((satDuration (e - later), none), m1)

/-- Progress of one call of `modifyNumericValue`: before `m.read`, between the read (with the
conversion of the value read) and `m.mutex.Lock()`, and after the return. -/
inductive NumericCall where
  | start
  | loaded (record : memRecord) (num : Int)
  | returned (existed : Bool) (err : Option Error)

/-- One atomic section of a call of `modifyNumericValue` on the shared cache: the read under
the read lock, or the write under the write lock. -/
def NumericCall.step (lib : CastLib) (key : String) (value : Int) (op : Int → Int → Int)
    (now : Time) (m : memCache) : NumericCall → NumericCall × memCache
  | NumericCall.start =>
    match m.read key now with
    | (none, m1) => (NumericCall.returned false none, m1)
    | (some record, m1) =>
      match Caster.Int64 lib (NewCaster record.data) with
      | Except.error _ => (NumericCall.returned false (some Error.notNumeric), m1)
      | Except.ok num => (NumericCall.loaded record num, m1)
  | NumericCall.loaded record num =>
    (NumericCall.returned true none,
      ⟨mapSet m.data key ⟨Value.int64 (op num value), record.expiry⟩⟩)
  | NumericCall.returned existed err => (NumericCall.returned existed err, m)

/-- Several calls `Increment(key, value)` in flight on one cache: the schedule names, step by
step, the call that runs its next atomic section and the clock reading it sees. -/
def runIncrements (lib : CastLib) (key : String) (value : Int) :
    List (Nat × Time) → memCache × List NumericCall → memCache × List NumericCall
  | [], st => st
  | (i, now) :: rest, (m, calls) =>
    match calls.get? i with
    | none => runIncrements lib key value rest (m, calls)
    | some c =>
      let r := NumericCall.step lib key value (fun a b => wrapInt64 (a + b)) now m c
      runIncrements lib key value rest (r.2, calls.set i r.1)

/-- Embedding of `limiter`: the cache is passed to every method. -/
structure limiter where
  name : String
  maxAttempts : Nat
  ttl : Duration

/-- Embedding of `NewRateLimiter`. -/
def NewRateLimiter (name : String) (maxAttempts : Nat) (ttl : Duration) : limiter :=
  ⟨"limiter " ++ name, maxAttempts, ttl⟩

/-- Embedding of `limiter.Hit`; `l.maxAttempts-1` is a `uint32` subtraction. -/
def limiter.Hit (lib : CastLib) (l : limiter) (c : memCache) (now : Time) :
    Option Error × memCache :=
  match c.Decrement lib l.name 1 now with
  | ((_, some err), c1) => (some err, c1)
  | ((false, none), c1) =>
    c1.Put l.name (Value.uint32 (wrapUint32 ((l.maxAttempts : Int) - 1))) (some l.ttl) now
  | ((true, none), c1) => (none, c1)

/-- Embedding of `limiter.Lock`. -/
def limiter.Lock (l : limiter) (c : memCache) (now : Time) : Option Error × memCache :=
  match c.Update l.name (Value.int 0) now with
  | ((_, some err), c1) => (some err, c1)
  | ((false, none), c1) => c1.Put l.name (Value.int 0) (some l.ttl) now
  | ((true, none), c1) => (none, c1)

/-- Embedding of `limiter.Reset`. -/
def limiter.Reset (l : limiter) (c : memCache) (now : Time) : Option Error × memCache :=
  c.Put l.name (Value.uint32 l.maxAttempts) (some l.ttl) now

/-- Embedding of `limiter.Clear`. -/
def limiter.Clear (l : limiter) (c : memCache) : Option Error × memCache :=
  c.Forget l.name

/-- Embedding of `limiter.MustLock`. -/
def limiter.MustLock (lib : CastLib) (l : limiter) (c : memCache) (now : Time) :
    (Bool × Option Error) × memCache :=
  match c.Cast l.name now with
  | ((_, some err), c1) => ((true, some err), c1)
  | ((caster, none), c1) =>
    if caster.IsNil then ((false, none), c1)
    else
      match caster.Int lib with
      | Except.error err => ((true, some err), c1)
      | Except.ok num => ((decide (num ≤ 0), none), c1)

/-- Embedding of `limiter.TotalAttempts`; the result is the `uint32` difference
`l.maxAttempts - uint32(num)`. -/
def limiter.TotalAttempts (lib : CastLib) (l : limiter) (c : memCache) (now : Time) :
    (Nat × Option Error) × memCache :=
  match c.Cast l.name now with
  | ((_, some err), c1) => ((0, some err), c1)
  | ((caster, none), c1) =>
    if caster.IsNil then ((0, none), c1)
    else
      match caster.Int lib with
      | Except.error err => ((0, some err), c1)
      | Except.ok num =>
        let num1 : Int := if num < (l.maxAttempts : Int) then (l.maxAttempts : Int) else num
        ((wrapUint32 ((l.maxAttempts : Int) - (wrapUint32 num1 : Int)), none), c1)

/-- Embedding of `limiter.RetriesLeft`; the result is the conversion `uint32(num)`. -/
def limiter.RetriesLeft (lib : CastLib) (l : limiter) (c : memCache) (now : Time) :
    (Nat × Option Error) × memCache :=
  match c.Cast l.name now with
  | ((_, some err), c1) => ((0, some err), c1)
  | ((caster, none), c1) =>
    if caster.IsNil then ((0, none), c1)
    else
      match caster.Int lib with
      | Except.error err => ((0, some err), c1)
      | Except.ok num =>
        let num1 : Int := if num < 0 then 0 else num
        ((wrapUint32 num1, none), c1)

/-- Consecutive calls of `Hit`, one per clock reading of the list, stopping at the first
error. -/
def limiter.hits (lib : CastLib) (l : limiter) (c : memCache) :
    List Time → Option Error × memCache
  | [] => (none, c)
  | t :: ts =>
    match l.Hit lib c t with
    | (some err, c1) => (some err, c1)
    | (none, c1) => limiter.hits lib l c1 ts

/-- An entry is live at `now`: it has no expiry, or its expiry is not before `now`. -/
def memRecord.liveAt (r : memRecord) (now : Time) : Prop :=
  match r.expiry with
  | none => True
  | some e => ¬ e < now

instance (r : memRecord) (now : Time) : Decidable (r.liveAt now) := by
  unfold memRecord.liveAt
  cases r.expiry <;> infer_instance

/-- Closed form of the counter after `j + 1` hits on a fresh limiter inside one window: the
first hit stores the `uint32` value `maxAttempts - 1`, every later one subtracts 1 on `int64`. -/
def hitCounter (maxAttempts : Nat) (j : Nat) : Int :=
  if j = 0 then (wrapUint32 ((maxAttempts : Int) - 1) : Int)
  else wrapInt64 ((wrapUint32 ((maxAttempts : Int) - 1) : Int) - (j : Int))

/-- Embedding of `memCache.PutOrUpdate`. -/
def memCache.PutOrUpdate (m : memCache) (key : String) (value : Value)
    (ttl : Option Duration) (now : Time) : Option Error × memCache :=
  match m.Update key value now with
  | ((_, some err), m1) => (some err, m1)
  | ((false, none), m1) => m1.Put key value ttl now
  | ((true, none), m1) => (none, m1)

/-- Embedding of `memCache.Pull`. -/
def memCache.Pull (m : memCache) (key : String) (now : Time) :
    (Value × Option Error) × memCache :=
  match m.Get key now with
  | ((_, some err), m1) => ((Value.nil, some err), m1)
  | ((val, none), m1) =>
    match m1.Forget key with
    | (some err, m2) => ((Value.nil, some err), m2)
    | (none, m2) => ((val, none), m2)

/-- Embedding of `randomString`: the `i`-th byte is `letters[randomer.Intn(len(letters))]`,
where `draws i` (reduced below `len(letters)`) is the outcome of the `i`-th call of `Intn`. -/
def randomString (draws : Nat → Nat) (n : Nat) (letters : String) : String × Option Error :=
  if letters.length = 0 then ("", none)
  else
    (String.mk ((List.range n).map
      (fun i => letters.data.getD (draws i % letters.length) (Char.ofNat 0))), none)

/-- Embedding of `verification`: the cache is passed to every method. -/
structure verification where
  name : String
  ttl : Duration

/-- Embedding of `NewVerification`. -/
def NewVerification (name : String) (ttl : Duration) : verification :=
  ⟨"verify " ++ name, ttl⟩

/-- Embedding of `verification.Set`. -/
def verification.Set (v : verification) (c : memCache) (code : String) (now : Time) :
    Option Error × memCache :=
  match c.Update v.name (Value.string code) now with
  | ((_, some err), c1) => (some err, c1)
  | ((false, none), c1) => c1.Put v.name (Value.string code) (some v.ttl) now
  | ((true, none), c1) => (none, c1)

/-- Embedding of `verification.Generate`. -/
def verification.Generate (v : verification) (c : memCache) (draws : Nat → Nat) (count : Nat)
    (now : Time) : (String × Option Error) × memCache :=
  match randomString draws count "0123456789" with
  | (_, some err) => (("", some err), c)
  | (code, none) =>
    match v.Set c code now with
    | (some err, c1) => (("", some err), c1)
    | (none, c1) => ((code, none), c1)

/-- Embedding of `verification.Clear`. -/
def verification.Clear (v : verification) (c : memCache) : Option Error × memCache :=
  c.Forget v.name

/-- Embedding of `verification.Get`; the string that comes with an error of `caster.String()`
is taken to be empty. -/
def verification.Get (lib : CastLib) (v : verification) (c : memCache) (now : Time) :
    (String × Option Error) × memCache :=
  match c.Cast v.name now with
  | ((_, some err), c1) => (("", some err), c1)
  | ((caster, none), c1) =>
    if caster.IsNil then (("", none), c1)
    else
      match caster.String lib with
      | Except.error err => (("", some err), c1)
      | Except.ok s => ((s, none), c1)

/-- Embedding of `verification.Validate`. -/
def verification.Validate (lib : CastLib) (v : verification) (c : memCache) (code : String)
    (now : Time) : (Bool × Option Error) × memCache :=
  match v.Get lib c now with
  | ((s, err), c1) =>
    if err ≠ none ∨ s = "" ∨ code = "" then ((false, err), c1)
    else ((decide (s = code), none), c1)

/-- Embedding of `verification.Exists`. -/
def verification.Exists (v : verification) (c : memCache) (now : Time) :
    (Bool × Option Error) × memCache :=
  c.Exists v.name now

/-- Embedding of `verification.TTL`. -/
def verification.TTL (v : verification) (c : memCache) (now later : Time) :
    (Duration × Option Error) × memCache :=
  c.TTL v.name now later

/-- The characters that the pattern `[^a-zA-Z0-9\-]` of `slugify` does not match: ASCII letters,
digits and the dash. -/
def slugChar (c : Char) : Bool := c.isAlphanum || c == '-'

/-- The characters matched by `\s` in a Go regular expression: tab, line feed, form feed,
carriage return and space. -/
def spaceChar (c : Char) : Bool :=
  c == ' ' || c == Char.ofNat 9 || c == Char.ofNat 10 || c == Char.ofNat 12 || c == Char.ofNat 13

/-- The call `ReplaceAllString(content, "-")` for a pattern `X+` over a character class: every
maximal run of characters of the class becomes one dash (`inRun`: the previous character
belonged to a run). -/
def replaceRuns (p : Char → Bool) : Bool → List Char → List Char
  | _, [] => []
  | inRun, c :: cs =>
    if p c then (if inRun then replaceRuns p true cs else '-' :: replaceRuns p true cs)
    else c :: replaceRuns p false cs

/-- Embedding of `slugify`: join with "-", delete what `rxChars` matches, replace the runs of
`rxSpaces`, then the runs of `rxDashes`, by one dash. -/
def slugify (keys : List String) : String :=
  String.mk (replaceRuns (fun c => c == '-') false
    (replaceRuns spaceChar false ((String.intercalate "-" keys).data.filter slugChar)))

/-- Embedding of `cacheKey`. -/
def cacheKey (pfx : String) (keys : List String) : String :=
  if slugify [pfx] ≠ "" then slugify [pfx] ++ ":" ++ slugify keys else slugify keys

/-- Embedding of `redisCache`, without the client. -/
structure redisCache where
  pfx : String

/-- Embedding of `redisCache.prefixer`. -/
def redisCache.prefixer (r : redisCache) (key : String) : String :=
  cacheKey r.pfx [key]

/-- The Redis command `LPUSH` on the list stored under one key: insert at the head. -/
def Redis.LPush (l : List String) (value : String) : List String := value :: l

/-- The Redis command `LPOP`: remove and return the head (`none` stands for `redis.Nil`). -/
def Redis.LPop (l : List String) : Option String × List String :=
  match l with
  | [] => (none, [])
  | x :: rest => (some x, rest)

/-- The Redis command `RPOP`: remove and return the tail element. -/
def Redis.RPop (l : List String) : Option String × List String :=
  (l.getLast?, l.dropLast)

/-- Embedding of `redisQueue.Push` on the list stored under the name of the queue; the
connection does not fail. -/
def redisQueue.Push (q : List String) (value : String) : Option Error × List String :=
  (none, Redis.LPush q value)

/-- Embedding of `redisQueue.Pull`. -/
def redisQueue.Pull (q : List String) : (Value × Option Error) × List String :=
  match Redis.LPop q with
  | (none, q1) => ((Value.nil, none), q1)
  | (some val, q1) => ((Value.string val, none), q1)

/-- Embedding of `redisQueue.Pop`. -/
def redisQueue.Pop (q : List String) : (Value × Option Error) × List String :=
  match Redis.RPop q with
  | (none, q1) => ((Value.nil, none), q1)
  | (some val, q1) => ((Value.string val, none), q1)

/-- Embedding of `redisQueue.Cast`. -/
def redisQueue.Cast (q : List String) : (Caster × Option Error) × List String :=
  match redisQueue.Pull q with
  | ((val, err), q1) => ((NewCaster val, err), q1)

/-- Consecutive calls of `Push`, in the order of the list. -/
def redisQueue.pushAll (q : List String) : List String → List String
  | [] => q
  | x :: xs => redisQueue.pushAll (redisQueue.Push q x).2 xs

/-- Progress of one call of `memCache.read`: before the lookup under the read lock, between the
release of the read lock (the entry was seen expired) and `m.mutex.Lock()`, and after the
return. -/
inductive ReadCall where
  | start
  | sawExpired
  | returned (record : Option memRecord)

/-- One atomic section of a call of `memCache.read` on the shared cache: the lookup under the
read lock, or `delete(m.data, key)` under the write lock. -/
def ReadCall.step (key : String) (now : Time) (m : memCache) : ReadCall → ReadCall × memCache
  | ReadCall.start =>
    match m.data key with
    | none => (ReadCall.returned none, m)
    | some val =>
      match val.expiry with
      | some e => if e < now then (ReadCall.sawExpired, m) else (ReadCall.returned (some val), m)
      | none => (ReadCall.returned (some val), m)
  | ReadCall.sawExpired => (ReadCall.returned none, ⟨mapDelete m.data key⟩)
  | ReadCall.returned record => (ReadCall.returned record, m)

/-! ## The in-memory cache: lookups -/

theorem read_absent (m : memCache) (key : String) (now : Time) (h : m.data key = none) :
    m.read key now = (none, m) := by
  simp [memCache.read, h]

theorem read_live (m : memCache) (key : String) (now : Time) (r : memRecord)
    (h : m.data key = some r) (hl : r.liveAt now) : m.read key now = (some r, m) := by
  obtain ⟨v, expiry⟩ := r
  cases expiry with
  | none => simp [memCache.read, h]
  | some e =>
    have hl2 : ¬ e < now := hl
    simp [memCache.read, h, hl2]

theorem read_expired (m : memCache) (key : String) (now : Time) (r : memRecord)
    (h : m.data key = some r) (hl : ¬ r.liveAt now) :
    m.read key now = (none, ⟨mapDelete m.data key⟩) := by
  obtain ⟨v, expiry⟩ := r
  cases expiry with
  | none => exact absurd trivial hl
  | some e =>
    have hl2 : e < now := not_not.mp hl
    simp [memCache.read, h, hl2]

/-- C1 (as amended): after `Put(k, v, d)` at time `t`, and as long as the entry of `k` is the one
that `Put` wrote, `Get` and `Exists` at time `t'` report the entry present (value `v`, `true`)
for every `t' ≤ t + d` and absent for every `t' > t + d`. -/
theorem put_expiry_boundary (m m2 : memCache) (k : String) (v : Value) (d : Duration)
    (t t' : Time) (h : m2.data k = (m.Put k v (some d) t).2.data k) :
    (m2.Get k t').1 = (if t + d < t' then (Value.nil, none) else (v, none)) ∧
    (m2.Exists k t').1 = (decide (t' ≤ t + d), none) := by
  have hk : m2.data k = some ⟨v, some (t + d)⟩ := by
    rw [h]; simp [memCache.Put, mapSet]
  by_cases hlt : t + d < t'
  · have hr := read_expired m2 k t' _ hk (by simp [memRecord.liveAt, hlt])
    have hle : ¬ t' ≤ t + d := not_le.mpr hlt
    simp [memCache.Get, memCache.Exists, hr, hlt, hle]
  · have hr := read_live m2 k t' _ hk (by simp [memRecord.liveAt, hlt])
    have hle : t' ≤ t + d := not_lt.mp hlt
    simp [memCache.Get, memCache.Exists, hr, hlt, hle]

/-- C1, witness: a five-nanosecond entry stored at time 10 is read at times 15 and 16. -/
theorem put_expiry_boundary_witness :
    ((NewMemoryCache.Put "k" (Value.int 7) (some 5) 10).2.Get "k" 15).1
        = (Value.int 7, none) ∧
    ((NewMemoryCache.Put "k" (Value.int 7) (some 5) 10).2.Exists "k" 16).1
        = (false, none) := by
  have h1 := put_expiry_boundary NewMemoryCache
    (NewMemoryCache.Put "k" (Value.int 7) (some 5) 10).2 "k" (Value.int 7) 5 10 15 rfl
  have h2 := put_expiry_boundary NewMemoryCache
    (NewMemoryCache.Put "k" (Value.int 7) (some 5) 10).2 "k" (Value.int 7) 5 10 16 rfl
  refine ⟨?_, ?_⟩
  · rw [h1.1]; simp
  · rw [h2.2]; simp

/-- C1, counterexample: at the instant `t' = t + d` itself (here `10 + 5`) the entry is still
reported present by `Exists` and `Get`, where the claim demands it absent. -/
theorem put_expiry_boundary_counterexample :
    ((NewMemoryCache.Put "k" (Value.int 7) (some 5) 10).2.Exists "k" (10 + 5)).1
        = (true, none) ∧
    ((NewMemoryCache.Put "k" (Value.int 7) (some 5) 10).2.Get "k" (10 + 5)).1
        = (Value.int 7, none) := by
  constructor <;> simp [memCache.Put, memCache.Exists, memCache.Get, memCache.read, mapSet]

/-! ## The in-memory cache: `Update` -/

theorem liveAt_same_expiry (r1 r2 : memRecord) (t : Time) (h : r1.expiry = r2.expiry) :
    r1.liveAt t ↔ r2.liveAt t := by
  unfold memRecord.liveAt
  rw [h]

/-- C2: for a key `k` that is present and unexpired with record `r`, `Update(k, v2)` returns
`(true, nil)`, leaves `v2` under `k` with the expiry of `r` (possibly none), changes no other
key, a `Get(k)` before that expiry returns `v2`, and `TTL(k)` reads the same as before. -/
theorem update_preserves_expiry (m : memCache) (k : String) (v2 : Value) (now : Time)
    (r : memRecord) (h : m.data k = some r) (hl : r.liveAt now) :
    (m.Update k v2 now).1 = (true, none) ∧
    (m.Update k v2 now).2.data k = some ⟨v2, r.expiry⟩ ∧
    (∀ k1, k1 ≠ k → (m.Update k v2 now).2.data k1 = m.data k1) ∧
    (∀ t, r.liveAt t → ((m.Update k v2 now).2.Get k t).1 = (v2, none)) ∧
    (∀ t t2, ((m.Update k v2 now).2.TTL k t t2).1 = (m.TTL k t t2).1) := by
  have hr := read_live m k now r h hl
  have hu : m.Update k v2 now = ((true, none), ⟨mapSet m.data k ⟨v2, r.expiry⟩⟩) := by
    simp [memCache.Update, hr]
  have hk : (m.Update k v2 now).2.data k = some ⟨v2, r.expiry⟩ := by
    simp [hu, mapSet]
  refine ⟨by rw [hu], hk, ?_, ?_, ?_⟩
  · intro k1 hk1
    simp [hu, mapSet, hk1]
  · intro t ht
    have hl2 : (memRecord.mk v2 r.expiry).liveAt t :=
      (liveAt_same_expiry ⟨v2, r.expiry⟩ r t rfl).mpr ht
    have := read_live (m.Update k v2 now).2 k t _ hk hl2
    simp [memCache.Get, this]
  · intro t t2
    by_cases ht : r.liveAt t
    · have hl2 : (memRecord.mk v2 r.expiry).liveAt t :=
        (liveAt_same_expiry ⟨v2, r.expiry⟩ r t rfl).mpr ht
      have h1 := read_live (m.Update k v2 now).2 k t _ hk hl2
      have h2 := read_live m k t r h ht
      simp only [memCache.TTL, h1, h2]
      cases r.expiry <;> rfl
    · have hl2 : ¬ (memRecord.mk v2 r.expiry).liveAt t :=
        fun hx => ht ((liveAt_same_expiry ⟨v2, r.expiry⟩ r t rfl).mp hx)
      have h1 := read_expired (m.Update k v2 now).2 k t _ hk hl2
      have h2 := read_expired m k t r h ht
      simp [memCache.TTL, h1, h2]

/-- C2, witness: a value stored at time 0 for 100 ns is updated at time 40. -/
theorem update_preserves_expiry_witness :
    (((NewMemoryCache.Put "k" (Value.string "v1") (some 100) 0).2.Update "k"
        (Value.string "v2") 40).2.data "k") = some ⟨Value.string "v2", some 100⟩ := by
  have h := update_preserves_expiry (NewMemoryCache.Put "k" (Value.string "v1") (some 100) 0).2
    "k" (Value.string "v2") 40 ⟨Value.string "v1", some (0 + 100)⟩
    (by simp [memCache.Put, mapSet]) (by simp [memRecord.liveAt])
  simpa using h.2.1

/-! ## The in-memory cache: integer counters -/

theorem wrapInt64_of_range (x : Int) (h1 : -(2 ^ 63) ≤ x) (h2 : x < 2 ^ 63) :
    wrapInt64 x = x := by
  unfold wrapInt64
  omega

theorem modifyNumericValue_present (lib : CastLib) (m : memCache) (k : String) (delta : Int)
    (op : Int → Int → Int) (now : Time) (r : memRecord) (n : Int)
    (h : m.data k = some r) (hl : r.liveAt now)
    (hn : Caster.Int64 lib (NewCaster r.data) = Except.ok n) :
    m.modifyNumericValue lib k delta op now
      = ((true, none), ⟨mapSet m.data k ⟨Value.int64 (op n delta), r.expiry⟩⟩) := by
  have hr := read_live m k now r h hl
  simp [memCache.modifyNumericValue, hr, hn]

/-- C3 (as amended): for a key `k` present and unexpired whose value converts to the int64 `n`,
`Increment(k, delta)` returns `(true, nil)` and stores the int64 `n + delta` reduced into the
int64 range, `Decrement(k, delta)` likewise with `n - delta`; the stored number is `n + delta`
(`n - delta`) itself whenever that lies in the int64 range; the expiry and all other keys are
unchanged. -/
theorem increment_decrement_present (lib : CastLib) (m : memCache) (k : String) (delta : Int)
    (now : Time) (r : memRecord) (n : Int) (h : m.data k = some r) (hl : r.liveAt now)
    (hn : Caster.Int64 lib (NewCaster r.data) = Except.ok n) :
    (m.Increment lib k delta now).1 = (true, none) ∧
    (m.Increment lib k delta now).2.data k
      = some ⟨Value.int64 (wrapInt64 (n + delta)), r.expiry⟩ ∧
    (∀ k1, k1 ≠ k → (m.Increment lib k delta now).2.data k1 = m.data k1) ∧
    (m.Decrement lib k delta now).1 = (true, none) ∧
    (m.Decrement lib k delta now).2.data k
      = some ⟨Value.int64 (wrapInt64 (n - delta)), r.expiry⟩ ∧
    (∀ k1, k1 ≠ k → (m.Decrement lib k delta now).2.data k1 = m.data k1) ∧
    (-(2 ^ 63) ≤ n + delta → n + delta < 2 ^ 63 →
      (m.Increment lib k delta now).2.data k = some ⟨Value.int64 (n + delta), r.expiry⟩) ∧
    (-(2 ^ 63) ≤ n - delta → n - delta < 2 ^ 63 →
      (m.Decrement lib k delta now).2.data k = some ⟨Value.int64 (n - delta), r.expiry⟩) := by
  have hi := modifyNumericValue_present lib m k delta (fun a b => wrapInt64 (a + b)) now r n
    h hl hn
  have hd := modifyNumericValue_present lib m k delta (fun a b => wrapInt64 (a - b)) now r n
    h hl hn
  refine ⟨?_, ?_, ?_, ?_, ?_, ?_, ?_, ?_⟩
  · simp [memCache.Increment, hi]
  · simp [memCache.Increment, hi, mapSet]
  · intro k1 hk1
    simp [memCache.Increment, hi, mapSet, hk1]
  · simp [memCache.Decrement, hd]
  · simp [memCache.Decrement, hd, mapSet]
  · intro k1 hk1
    simp [memCache.Decrement, hd, mapSet, hk1]
  · intro h1 h2
    simp [memCache.Increment, hi, mapSet, wrapInt64_of_range _ h1 h2]
  · intro h1 h2
    simp [memCache.Decrement, hd, mapSet, wrapInt64_of_range _ h1 h2]

/-- C3, witness: the counter of the repository's test, 10 plus 5. -/
theorem increment_decrement_present_witness :
    ((NewMemoryCache.Put "counter" (Value.int64 10) none 0).2.Increment strictCast
        "counter" 5 1).2.data "counter" = some ⟨Value.int64 15, none⟩ := by
  have h := increment_decrement_present strictCast
    (NewMemoryCache.Put "counter" (Value.int64 10) none 0).2 "counter" 5 1
    ⟨Value.int64 10, none⟩ 10 (by simp [memCache.Put, mapSet]) (by simp [memRecord.liveAt])
    (by simp [Caster.Int64, NewCaster])
  have h7 := h.2.2.2.2.2.2.1 (by norm_num) (by norm_num)
  simpa using h7

/-- C3, counterexample: `Increment(k, 1)` on the stored int64 `2^63 - 1` stores `-2^63`, where
the claim demands `n + delta = 2^63`. -/
theorem increment_overflow_counterexample :
    ((NewMemoryCache.Put "k" (Value.int64 9223372036854775807) none 0).2.Increment strictCast
        "k" 1 0).2.data "k" = some ⟨Value.int64 (-9223372036854775808), none⟩ ∧
    (-9223372036854775808 : Int) ≠ 9223372036854775807 + 1 := by
  refine ⟨?_, by decide⟩
  have h := modifyNumericValue_present strictCast
    (NewMemoryCache.Put "k" (Value.int64 9223372036854775807) none 0).2 "k" 1
    (fun a b => wrapInt64 (a + b)) 0
    ⟨Value.int64 9223372036854775807, none⟩ 9223372036854775807
    (by simp [memCache.Put, mapSet]) (by simp [memRecord.liveAt])
    (by simp [Caster.Int64, NewCaster])
  unfold memCache.Increment
  rw [h]
  simp [mapSet, wrapInt64]

/-! ## The in-memory cache: concurrent counters -/

/-- The two atomic sections of `NumericCall.step`, run back to back, are the sequential
`modifyNumericValue`. -/
theorem step_step_eq_modifyNumericValue (lib : CastLib) (m : memCache) (key : String)
    (value : Int) (op : Int → Int → Int) (now : Time) :
    (NumericCall.step lib key value op now
        (NumericCall.step lib key value op now m NumericCall.start).2
        (NumericCall.step lib key value op now m NumericCall.start).1)
      = (NumericCall.returned (m.modifyNumericValue lib key value op now).1.1
          (m.modifyNumericValue lib key value op now).1.2,
        (m.modifyNumericValue lib key value op now).2) := by
  unfold memCache.modifyNumericValue
  simp only [NumericCall.step]
  rcases hread : m.read key now with ⟨ro, m1⟩
  cases ro with
  | none => simp [NumericCall.step]
  | some record =>
    cases hc : Caster.Int64 lib (NewCaster record.data) with
    | error e => simp [hc, NumericCall.step]
    | ok num => simp [hc, NumericCall.step]

/-- C4, the lost update: two calls `Increment(k, 1)` run against the stored int64 0.  When each
call runs its two atomic sections back to back the final value is 2; when both calls read
before either writes, both return `(true, nil)` and the final value is 1, not `v0 + N = 2`. -/
theorem increment_lost_update :
    (runIncrements strictCast "k" 1 [(0, 1), (0, 1), (1, 1), (1, 1)]
        ((NewMemoryCache.Put "k" (Value.int64 0) none 0).2,
          [NumericCall.start, NumericCall.start])).1.data "k"
      = some ⟨Value.int64 2, none⟩ ∧
    (runIncrements strictCast "k" 1 [(0, 1), (1, 1), (0, 1), (1, 1)]
        ((NewMemoryCache.Put "k" (Value.int64 0) none 0).2,
          [NumericCall.start, NumericCall.start])).1.data "k"
      = some ⟨Value.int64 1, none⟩ ∧
    (runIncrements strictCast "k" 1 [(0, 1), (1, 1), (0, 1), (1, 1)]
        ((NewMemoryCache.Put "k" (Value.int64 0) none 0).2,
          [NumericCall.start, NumericCall.start])).2
      = [NumericCall.returned true none, NumericCall.returned true none] := by
  refine ⟨?_, ?_, ?_⟩ <;>
    simp [runIncrements, NumericCall.step, memCache.read, memCache.Put, mapSet, NewMemoryCache,
      Caster.Int64, NewCaster, wrapInt64]

/-! ## The in-memory cache: values that are not numbers -/

/-- C5: for a key `k` present and unexpired whose value converts neither to an int64 nor to a
float64, `Increment`, `Decrement`, `IncrementFloat` and `DecrementFloat` return `existed = false`
with the error "value is not numeric", and the cache is left as it was. -/
theorem modify_type_mismatch (lib : CastLib) (m : memCache) (k : String) (delta : Int)
    (fdelta : Float) (now : Time) (r : memRecord) (h : m.data k = some r) (hl : r.liveAt now)
    (hi : ∀ n, Caster.Int64 lib (NewCaster r.data) ≠ Except.ok n)
    (hf : ∀ x, Caster.Float64 lib (NewCaster r.data) ≠ Except.ok x) :
    m.Increment lib k delta now = ((false, some Error.notNumeric), m) ∧
    m.Decrement lib k delta now = ((false, some Error.notNumeric), m) ∧
    m.IncrementFloat lib k fdelta now = ((false, some Error.notNumeric), m) ∧
    m.DecrementFloat lib k fdelta now = ((false, some Error.notNumeric), m) := by
  have hr := read_live m k now r h hl
  have hi2 : ∃ e, Caster.Int64 lib (NewCaster r.data) = Except.error e := by
    cases hc : Caster.Int64 lib (NewCaster r.data) with
    | error e => exact ⟨e, rfl⟩
    | ok n => exact absurd hc (hi n)
  have hf2 : ∃ e, Caster.Float64 lib (NewCaster r.data) = Except.error e := by
    cases hc : Caster.Float64 lib (NewCaster r.data) with
    | error e => exact ⟨e, rfl⟩
    | ok x => exact absurd hc (hf x)
  obtain ⟨e1, he1⟩ := hi2
  obtain ⟨e2, he2⟩ := hf2
  refine ⟨?_, ?_, ?_, ?_⟩
  · simp [memCache.Increment, memCache.modifyNumericValue, hr, he1]
  · simp [memCache.Decrement, memCache.modifyNumericValue, hr, he1]
  · simp [memCache.IncrementFloat, memCache.modifyFloatValue, hr, he2]
  · simp [memCache.DecrementFloat, memCache.modifyFloatValue, hr, he2]

/-- C5, witness: the string "not-a-number" under a `cast` package that converts no string. -/
theorem modify_type_mismatch_witness :
    (NewMemoryCache.Put "k" (Value.string "not-a-number") none 0).2.Increment strictCast "k" 1 5
      = ((false, some Error.notNumeric),
          (NewMemoryCache.Put "k" (Value.string "not-a-number") none 0).2) :=
  (modify_type_mismatch strictCast
    (NewMemoryCache.Put "k" (Value.string "not-a-number") none 0).2 "k" 1 0 5
    ⟨Value.string "not-a-number", none⟩ (by simp [memCache.Put, mapSet])
    (by simp [memRecord.liveAt]) (by simp [Caster.Int64, NewCaster, strictCast])
    (by simp [Caster.Float64, NewCaster, strictCast])).1

/-! ## The rate limiter: reading the counter -/

theorem cast_live (m : memCache) (k : String) (now : Time) (r : memRecord)
    (h : m.data k = some r) (hl : r.liveAt now) :
    m.Cast k now = ((NewCaster r.data, none), m) := by
  have hr := read_live m k now r h hl
  simp [memCache.Cast, memCache.Get, hr]

theorem cast_missing (m : memCache) (k : String) (now : Time)
    (h : (m.read k now).1 = none) :
    m.Cast k now = ((NewCaster Value.nil, none), (m.read k now).2) := by
  rcases hread : m.read k now with ⟨ro, m1⟩
  rw [hread] at h
  simp only at h
  subst h
  simp [memCache.Cast, memCache.Get, hread]

theorem retriesLeft_live (lib : CastLib) (l : limiter) (c : memCache) (now : Time)
    (r : memRecord) (cnt : Int) (h : c.data l.name = some r) (hl : r.liveAt now)
    (hnil : Caster.IsNil (NewCaster r.data) = false)
    (hint : Caster.Int lib (NewCaster r.data) = Except.ok cnt) :
    l.RetriesLeft lib c now = ((wrapUint32 (if cnt < 0 then 0 else cnt), none), c) := by
  simp [limiter.RetriesLeft, cast_live c l.name now r h hl, hnil, hint]

theorem mustLock_live (lib : CastLib) (l : limiter) (c : memCache) (now : Time)
    (r : memRecord) (cnt : Int) (h : c.data l.name = some r) (hl : r.liveAt now)
    (hnil : Caster.IsNil (NewCaster r.data) = false)
    (hint : Caster.Int lib (NewCaster r.data) = Except.ok cnt) :
    l.MustLock lib c now = ((decide (cnt ≤ 0), none), c) := by
  simp [limiter.MustLock, cast_live c l.name now r h hl, hnil, hint]

theorem totalAttempts_live (lib : CastLib) (l : limiter) (c : memCache) (now : Time)
    (r : memRecord) (cnt : Int) (h : c.data l.name = some r) (hl : r.liveAt now)
    (hnil : Caster.IsNil (NewCaster r.data) = false)
    (hint : Caster.Int lib (NewCaster r.data) = Except.ok cnt) :
    l.TotalAttempts lib c now
      = ((wrapUint32 ((l.maxAttempts : Int)
            - (wrapUint32 (if cnt < (l.maxAttempts : Int) then (l.maxAttempts : Int) else cnt)
                : Int)), none), c) := by
  simp [limiter.TotalAttempts, cast_live c l.name now r h hl, hnil, hint]

theorem wrapUint32_of_range (x : Int) (h1 : 0 ≤ x) (h2 : x < 2 ^ 32) :
    wrapUint32 x = x.toNat := by
  unfold wrapUint32
  congr 1
  omega

/-- The code of `TotalAttempts` on a live counter below `maxAttempts`: the counter is raised to
`maxAttempts` and the difference is 0. -/
theorem totalAttempts_below_max (lib : CastLib) (l : limiter) (c : memCache) (now : Time)
    (r : memRecord) (cnt : Int) (h : c.data l.name = some r) (hl : r.liveAt now)
    (hnil : Caster.IsNil (NewCaster r.data) = false)
    (hint : Caster.Int lib (NewCaster r.data) = Except.ok cnt)
    (hm : l.maxAttempts < 2 ^ 32) (hc : cnt < (l.maxAttempts : Int)) :
    (l.TotalAttempts lib c now).1 = (0, none) := by
  rw [totalAttempts_live lib l c now r cnt h hl hnil hint]
  have h1 : wrapUint32 (l.maxAttempts : Int) = l.maxAttempts := by
    rw [wrapUint32_of_range _ (by omega) (by exact_mod_cast hm)]
    simp
  simp only [hc, if_true, h1, sub_self]
  simp [wrapUint32]

/-- C7, the failing input: one `Hit` on a fresh limiter with `maxAttempts = 5` leaves the
counter 4, and `TotalAttempts` then returns 0, not the one attempt made. -/
theorem totalAttempts_after_one_hit :
    ((NewRateLimiter "a" 5 10).Hit strictCast NewMemoryCache 0).2.data "limiter a"
      = some ⟨Value.uint32 4, some 10⟩ ∧
    ((NewRateLimiter "a" 5 10).TotalAttempts strictCast
      ((NewRateLimiter "a" 5 10).Hit strictCast NewMemoryCache 0).2 0).1 = (0, none) := by
  have hd : ((NewRateLimiter "a" 5 10).Hit strictCast NewMemoryCache 0).2.data "limiter a"
      = some ⟨Value.uint32 4, some 10⟩ := by
    simp [limiter.Hit, NewRateLimiter, memCache.Decrement, memCache.modifyNumericValue,
      memCache.read, NewMemoryCache, memCache.Put, mapSet, wrapUint32]
  refine ⟨hd, ?_⟩
  exact totalAttempts_below_max strictCast (NewRateLimiter "a" 5 10) _ 0
    ⟨Value.uint32 4, some 10⟩ 4 hd (by simp [memRecord.liveAt])
    (by simp [Caster.IsNil, NewCaster]) (by simp [Caster.Int, NewCaster])
    (by simp [NewRateLimiter]) (by simp [NewRateLimiter])

/-- C8: when the limiter's entry is live and holds a value that is not `nil` and reads as the
integer `cnt < 2^32`, `RetriesLeft` returns `max(cnt, 0)` with a nil error; when the limiter has
no live entry it returns 0 with a nil error. -/
theorem retriesLeft_clamped (lib : CastLib) (l : limiter) (c : memCache) (now : Time) :
    (∀ (r : memRecord) (cnt : Int), c.data l.name = some r → r.liveAt now →
        Caster.IsNil (NewCaster r.data) = false →
        Caster.Int lib (NewCaster r.data) = Except.ok cnt → cnt < 2 ^ 32 →
        (l.RetriesLeft lib c now).1 = ((max cnt 0).toNat, none)) ∧
    ((c.read l.name now).1 = none → (l.RetriesLeft lib c now).1 = (0, none)) := by
  constructor
  · intro r cnt h hl hnil hint hlt
    rw [retriesLeft_live lib l c now r cnt h hl hnil hint]
    by_cases hneg : cnt < 0
    · have : max cnt 0 = 0 := max_eq_right (le_of_lt hneg)
      simp [hneg, this, wrapUint32]
    · have hmax : max cnt 0 = cnt := max_eq_left (not_lt.mp hneg)
      simp only [hneg, if_false, hmax]
      rw [wrapUint32_of_range cnt (not_lt.mp hneg) hlt]
  · intro h
    simp [limiter.RetriesLeft, cast_missing c l.name now h, Caster.IsNil, NewCaster]

/-- C8, witness: a stored counter of -2 reads as 0 retries, a missing entry as 0. -/
theorem retriesLeft_clamped_witness :
    ((NewRateLimiter "a" 5 10).RetriesLeft strictCast
        (NewMemoryCache.Put "limiter a" (Value.int64 (-2)) (some 10) 0).2 3).1 = (0, none) ∧
    ((NewRateLimiter "a" 5 10).RetriesLeft strictCast NewMemoryCache 3).1 = (0, none) := by
  constructor
  · have h := (retriesLeft_clamped strictCast (NewRateLimiter "a" 5 10)
      (NewMemoryCache.Put "limiter a" (Value.int64 (-2)) (some 10) 0).2 3).1
      ⟨Value.int64 (-2), some (0 + 10)⟩ (-2)
      (by simp [memCache.Put, mapSet, NewRateLimiter]) (by simp [memRecord.liveAt])
      (by simp [Caster.IsNil, NewCaster]) (by simp [Caster.Int, NewCaster]) (by norm_num)
    simpa using h
  · exact (retriesLeft_clamped strictCast (NewRateLimiter "a" 5 10) NewMemoryCache 3).2
      (by simp [memCache.read, NewMemoryCache])

/-- C9: when the limiter's entry is live and holds a value that is not `nil` and reads as the
integer `cnt`, `MustLock` returns a nil error and `true` exactly when `cnt ≤ 0`; when the
limiter has no live entry it returns `false` with a nil error. -/
theorem mustLock_iff (lib : CastLib) (l : limiter) (c : memCache) (now : Time) :
    (∀ (r : memRecord) (cnt : Int), c.data l.name = some r → r.liveAt now →
        Caster.IsNil (NewCaster r.data) = false →
        Caster.Int lib (NewCaster r.data) = Except.ok cnt →
        (l.MustLock lib c now).1 = (decide (cnt ≤ 0), none)) ∧
    ((c.read l.name now).1 = none → (l.MustLock lib c now).1 = (false, none)) := by
  constructor
  · intro r cnt h hl hnil hint
    rw [mustLock_live lib l c now r cnt h hl hnil hint]
  · intro h
    simp [limiter.MustLock, cast_missing c l.name now h, Caster.IsNil, NewCaster]

/-- C9, witness: a stored counter of 0 locks, a missing entry does not. -/
theorem mustLock_iff_witness :
    ((NewRateLimiter "a" 5 10).MustLock strictCast
        (NewMemoryCache.Put "limiter a" (Value.int 0) (some 10) 0).2 3).1 = (true, none) ∧
    ((NewRateLimiter "a" 5 10).MustLock strictCast NewMemoryCache 3).1 = (false, none) := by
  constructor
  · have h := (mustLock_iff strictCast (NewRateLimiter "a" 5 10)
      (NewMemoryCache.Put "limiter a" (Value.int 0) (some 10) 0).2 3).1
      ⟨Value.int 0, some (0 + 10)⟩ 0
      (by simp [memCache.Put, mapSet, NewRateLimiter]) (by simp [memRecord.liveAt])
      (by simp [Caster.IsNil, NewCaster]) (by simp [Caster.Int, NewCaster])
    simpa using h
  · exact (mustLock_iff strictCast (NewRateLimiter "a" 5 10) NewMemoryCache 3).2
      (by simp [memCache.read, NewMemoryCache])

/-! ## The rate limiter: `Reset` -/

theorem wrapUint32_natCast (n : Nat) (h : n < 2 ^ 32) : wrapUint32 (n : Int) = n := by
  rw [wrapUint32_of_range _ (by omega) (by exact_mod_cast h)]
  simp

/-- C10: for `1 ≤ maxAttempts` and every prior cache, `Reset` at time `now` returns no error and
leaves the entry `maxAttempts` with expiry `now + ttl`; up to that expiry `RetriesLeft` returns
`maxAttempts` and `MustLock` returns `false`. -/
theorem reset_restores (lib : CastLib) (l : limiter) (c : memCache) (now t' : Time)
    (h1 : 1 ≤ l.maxAttempts) (h2 : l.maxAttempts < 2 ^ 32) (ht : t' ≤ now + l.ttl) :
    (l.Reset c now).1 = none ∧
    (l.Reset c now).2.data l.name = some ⟨Value.uint32 l.maxAttempts, some (now + l.ttl)⟩ ∧
    (l.RetriesLeft lib (l.Reset c now).2 t').1 = (l.maxAttempts, none) ∧
    (l.MustLock lib (l.Reset c now).2 t').1 = (false, none) := by
  have hd : (l.Reset c now).2.data l.name
      = some ⟨Value.uint32 l.maxAttempts, some (now + l.ttl)⟩ := by
    simp [limiter.Reset, memCache.Put, mapSet]
  have hl : (memRecord.mk (Value.uint32 l.maxAttempts) (some (now + l.ttl))).liveAt t' := by
    simp [memRecord.liveAt, ht]
  have hnil : Caster.IsNil (NewCaster (Value.uint32 l.maxAttempts)) = false := by
    simp [Caster.IsNil, NewCaster]
  have hint : Caster.Int lib (NewCaster (Value.uint32 l.maxAttempts))
      = Except.ok (l.maxAttempts : Int) := by
    simp [Caster.Int, NewCaster]
  refine ⟨by simp [limiter.Reset, memCache.Put], hd, ?_, ?_⟩
  · rw [retriesLeft_live lib l _ t' _ _ hd hl hnil hint]
    have hneg : ¬ ((l.maxAttempts : Int) < 0) := by omega
    simp only [hneg, if_false, wrapUint32_natCast _ h2]
  · rw [mustLock_live lib l _ t' _ _ hd hl hnil hint]
    have hpos : ¬ ((l.maxAttempts : Int) ≤ 0) := by omega
    simp [hpos]

/-- C10, witness: a limiter of 5 attempts whose counter was driven to -3 is reset at time 7. -/
theorem reset_restores_witness :
    ((NewRateLimiter "a" 5 10).RetriesLeft strictCast
      ((NewRateLimiter "a" 5 10).Reset
        (NewMemoryCache.Put "limiter a" (Value.int64 (-3)) (some 10) 0).2 7).2 9).1
      = (5, none) :=
  (reset_restores strictCast (NewRateLimiter "a" 5 10)
    (NewMemoryCache.Put "limiter a" (Value.int64 (-3)) (some 10) 0).2 7 9
    (by simp [NewRateLimiter]) (by simp [NewRateLimiter]) (by simp [NewRateLimiter])).2.2.1

/-! ## The rate limiter: consecutive hits -/

theorem wrapInt64_sub_wrapInt64 (x y : Int) : wrapInt64 (wrapInt64 x - y) = wrapInt64 (x - y) := by
  unfold wrapInt64
  omega

theorem hit_fresh (lib : CastLib) (l : limiter) (c : memCache) (t : Time)
    (h : (c.read l.name t).1 = none) :
    (l.Hit lib c t).1 = none ∧
    (l.Hit lib c t).2.data l.name
      = some ⟨Value.uint32 (wrapUint32 ((l.maxAttempts : Int) - 1)), some (t + l.ttl)⟩ := by
  rcases hread : c.read l.name t with ⟨ro, c1⟩
  rw [hread] at h
  simp only at h
  subst h
  simp [limiter.Hit, memCache.Decrement, memCache.modifyNumericValue, hread, memCache.Put,
    mapSet]

theorem hit_live (lib : CastLib) (l : limiter) (c : memCache) (t : Time) (r : memRecord)
    (a : Int) (h : c.data l.name = some r) (hl : r.liveAt t)
    (ha : Caster.Int64 lib (NewCaster r.data) = Except.ok a) :
    (l.Hit lib c t).1 = none ∧
    (l.Hit lib c t).2.data l.name = some ⟨Value.int64 (wrapInt64 (a - 1)), r.expiry⟩ := by
  have hm := modifyNumericValue_present lib c l.name 1 (fun a b => wrapInt64 (a - b)) t r a
    h hl ha
  simp [limiter.Hit, memCache.Decrement, hm, mapSet]

/-- From a live integer counter `a` with expiry `e`, one or more hits before `e` leave the
int64 `a - k` (reduced into the int64 range) under the same expiry. -/
theorem hits_live (lib : CastLib) (l : limiter) (e : Time) (t : Time) (ts : List Time) :
    ∀ (c : memCache) (v : Value) (a : Int), c.data l.name = some ⟨v, some e⟩ →
      t ≤ e → (∀ u ∈ ts, u ≤ e) → Caster.Int64 lib (NewCaster v) = Except.ok a →
      (l.hits lib c (t :: ts)).1 = none ∧
      (l.hits lib c (t :: ts)).2.data l.name
        = some ⟨Value.int64 (wrapInt64 (a - ((ts.length : Int) + 1))), some e⟩ := by
  induction ts generalizing t with
  | nil =>
    intro c v a h ht _ ha
    obtain ⟨h1, h2⟩ := hit_live lib l c t ⟨v, some e⟩ a h
      (by simp [memRecord.liveAt, ht]) ha
    rcases hh : l.Hit lib c t with ⟨err, c1⟩
    rw [hh] at h1 h2
    simp only at h1 h2
    subst h1
    simp [limiter.hits, hh, h2]
  | cons u us ih =>
    intro c v a h ht hts ha
    obtain ⟨h1, h2⟩ := hit_live lib l c t ⟨v, some e⟩ a h
      (by simp [memRecord.liveAt, ht]) ha
    rcases hh : l.Hit lib c t with ⟨err, c1⟩
    rw [hh] at h1 h2
    simp only at h1 h2
    subst h1
    have hu : u ≤ e := hts u (by simp)
    have hus : ∀ w ∈ us, w ≤ e := fun w hw => hts w (by simp [hw])
    have := ih u c1 (Value.int64 (wrapInt64 (a - 1))) (wrapInt64 (a - 1)) h2 hu hus
      (by simp [Caster.Int64, NewCaster])
    have hstep : l.hits lib c (t :: u :: us) = l.hits lib c1 (u :: us) := by
      simp [limiter.hits, hh]
    rw [hstep]
    refine ⟨this.1, ?_⟩
    rw [this.2, wrapInt64_sub_wrapInt64]
    have : a - 1 - ((us.length : Int) + 1) = a - (((u :: us).length : Int) + 1) := by
      simp only [List.length_cons]
      push_cast
      ring
    rw [this]

theorem hits_fresh (lib : CastLib) (l : limiter) (c : memCache) (t1 : Time) (rest : List Time)
    (hfresh : (c.read l.name t1).1 = none) (hwin : ∀ u ∈ rest, u ≤ t1 + l.ttl) :
    (l.hits lib c (t1 :: rest)).1 = none ∧
    ∃ v, (l.hits lib c (t1 :: rest)).2.data l.name = some ⟨v, some (t1 + l.ttl)⟩ ∧
      Caster.IsNil (NewCaster v) = false ∧
      Caster.Int lib (NewCaster v) = Except.ok (hitCounter l.maxAttempts rest.length) := by
  obtain ⟨h1, h2⟩ := hit_fresh lib l c t1 hfresh
  rcases hh : l.Hit lib c t1 with ⟨err, c1⟩
  rw [hh] at h1 h2
  simp only at h1 h2
  subst h1
  cases rest with
  | nil =>
    refine ⟨by simp [limiter.hits, hh], Value.uint32 (wrapUint32 ((l.maxAttempts : Int) - 1)),
      by simp [limiter.hits, hh, h2], by simp [Caster.IsNil, NewCaster], ?_⟩
    simp [Caster.Int, NewCaster, hitCounter]
  | cons u us =>
    have hu : u ≤ t1 + l.ttl := hwin u (by simp)
    have hus : ∀ w ∈ us, w ≤ t1 + l.ttl := fun w hw => hwin w (by simp [hw])
    have hl := hits_live lib l (t1 + l.ttl) u us c1 _
      ((wrapUint32 ((l.maxAttempts : Int) - 1) : Nat) : Int) h2 hu hus
      (by simp [Caster.Int64, NewCaster])
    have hstep : l.hits lib c (t1 :: u :: us) = l.hits lib c1 (u :: us) := by
      simp [limiter.hits, hh]
    rw [hstep]
    refine ⟨hl.1, _, hl.2, by simp [Caster.IsNil, NewCaster], ?_⟩
    simp [Caster.Int, NewCaster, hitCounter]

theorem hits_fresh_reads (lib : CastLib) (l : limiter) (c : memCache) (t1 : Time)
    (rest : List Time) (t' : Time) (hfresh : (c.read l.name t1).1 = none)
    (hwin : ∀ u ∈ rest, u ≤ t1 + l.ttl) (ht' : t' ≤ t1 + l.ttl) :
    (l.hits lib c (t1 :: rest)).1 = none ∧
    (l.RetriesLeft lib (l.hits lib c (t1 :: rest)).2 t').1
      = (wrapUint32 (if hitCounter l.maxAttempts rest.length < 0 then 0
          else hitCounter l.maxAttempts rest.length), none) ∧
    (l.MustLock lib (l.hits lib c (t1 :: rest)).2 t').1
      = (decide (hitCounter l.maxAttempts rest.length ≤ 0), none) := by
  obtain ⟨h1, v, hd, hnil, hint⟩ := hits_fresh lib l c t1 rest hfresh hwin
  have hl : (memRecord.mk v (some (t1 + l.ttl))).liveAt t' := by
    simp [memRecord.liveAt, ht']
  refine ⟨h1, ?_, ?_⟩
  · rw [retriesLeft_live lib l _ t' _ _ hd hl hnil hint]
  · rw [mustLock_live lib l _ t' _ _ hd hl hnil hint]

theorem hitCounter_of_range (m j : Nat) (h1 : 1 ≤ m) (h2 : m < 2 ^ 32)
    (hk : j + 1 ≤ m + 2 ^ 63) : hitCounter m j = (m : Int) - ((j : Int) + 1) := by
  have hw : ((wrapUint32 ((m : Int) - 1) : Nat) : Int) = (m : Int) - 1 := by
    rw [wrapUint32_of_range _ (by omega) (by omega)]
    omega
  unfold hitCounter
  rw [hw]
  split
  · omega
  · rw [wrapInt64_of_range _ (by omega) (by omega)]
    omega

/-- Consecutive hits on a fresh limiter, as long as their number keeps the counter inside the
int64 range: the counter is `maxAttempts` minus the number of hits. -/
theorem hits_bounded (lib : CastLib) (l : limiter) (c : memCache) (t1 : Time)
    (rest : List Time) (t' : Time) (h1 : 1 ≤ l.maxAttempts) (h2 : l.maxAttempts < 2 ^ 32)
    (hfresh : (c.read l.name t1).1 = none) (hwin : ∀ u ∈ rest, u ≤ t1 + l.ttl)
    (ht' : t' ≤ t1 + l.ttl) (hk : rest.length + 1 ≤ l.maxAttempts + 2 ^ 63) :
    (l.hits lib c (t1 :: rest)).1 = none ∧
    (l.RetriesLeft lib (l.hits lib c (t1 :: rest)).2 t').1
      = (l.maxAttempts - (rest.length + 1), none) ∧
    (l.MustLock lib (l.hits lib c (t1 :: rest)).2 t').1
      = (decide (l.maxAttempts ≤ rest.length + 1), none) := by
  obtain ⟨hr1, hr2, hr3⟩ := hits_fresh_reads lib l c t1 rest t' hfresh hwin ht'
  have hc := hitCounter_of_range l.maxAttempts rest.length h1 h2 hk
  refine ⟨hr1, ?_, ?_⟩
  · rw [hr2, hc]
    congr 1
    by_cases hneg : (l.maxAttempts : Int) - ((rest.length : Int) + 1) < 0
    · simp only [hneg, if_true]
      have : l.maxAttempts - (rest.length + 1) = 0 := by omega
      rw [this]
      simp [wrapUint32]
    · simp only [hneg, if_false]
      rw [wrapUint32_of_range _ (by omega) (by omega)]
      omega
  · rw [hr3, hc]
    congr 1
    by_cases hle : l.maxAttempts ≤ rest.length + 1
    · have : (l.maxAttempts : Int) - ((rest.length : Int) + 1) ≤ 0 := by omega
      simp [hle, this]
    · have : ¬ ((l.maxAttempts : Int) - ((rest.length : Int) + 1) ≤ 0) := by omega
      simp [hle, this]

/-- Clock readings that increase strictly from `t1` and stay at or below `b` are at most
`b - t1` many. -/
theorem window_length_bound (rest : List Time) :
    ∀ t1 b : Time, List.Chain (fun x y => x < y) t1 rest → (∀ u ∈ rest, u ≤ b) →
      (rest.length : Int) + t1 ≤ max t1 b := by
  induction rest with
  | nil =>
    intro t1 b _ _
    simp
  | cons u us ih =>
    intro t1 b hch hb
    rw [List.chain_cons] at hch
    have hu : u ≤ b := hb u (by simp)
    have hih := ih u b hch.2 (fun w hw => hb w (by simp [hw]))
    rw [max_eq_right hu] at hih
    have h1 : t1 < u := hch.1
    have h2 : ((u :: us).length : Int) = (us.length : Int) + 1 := by
      simp
    rw [h2]
    have h3 : (us.length : Int) + 1 + t1 ≤ b := by linarith
    exact le_trans h3 (le_max_right _ _)

/-- C6: for `1 ≤ maxAttempts` (a `uint32`) and every `k = rest.length + 1 ≥ 1`, after `k`
consecutive hits on a fresh limiter, each at a later clock reading than the one before and all
inside the window opened by the first hit (`ttl` a `Duration`), no hit fails, `RetriesLeft`
returns `max(maxAttempts - k, 0)` and `MustLock` returns `true` exactly when
`k ≥ maxAttempts`. -/
theorem hits_exhaustion (lib : CastLib) (l : limiter) (c : memCache) (t1 : Time)
    (rest : List Time) (t' : Time) (h1 : 1 ≤ l.maxAttempts) (h2 : l.maxAttempts < 2 ^ 32)
    (httl : l.ttl < 2 ^ 63) (hfresh : (c.read l.name t1).1 = none)
    (hinc : List.Chain (fun x y => x < y) t1 rest) (hwin : ∀ u ∈ rest, u ≤ t1 + l.ttl)
    (ht' : t' ≤ t1 + l.ttl) :
    (l.hits lib c (t1 :: rest)).1 = none ∧
    (l.RetriesLeft lib (l.hits lib c (t1 :: rest)).2 t').1
      = (l.maxAttempts - (rest.length + 1), none) ∧
    (l.MustLock lib (l.hits lib c (t1 :: rest)).2 t').1
      = (decide (l.maxAttempts ≤ rest.length + 1), none) := by
  have hb := window_length_bound rest t1 (t1 + l.ttl) hinc hwin
  have hlen : (rest.length : Int) < 2 ^ 63 := by
    rcases le_total t1 (t1 + l.ttl) with hle | hle
    · rw [max_eq_right hle] at hb
      linarith
    · rw [max_eq_left hle] at hb
      have h0 : (rest.length : Int) ≤ 0 := by linarith
      have hp : (0 : Int) < 2 ^ 63 := by norm_num
      linarith
  have hlen2 : rest.length < 2 ^ 63 := by exact_mod_cast hlen
  exact hits_bounded lib l c t1 rest t' h1 h2 hfresh hwin ht' (by omega)

/-- C6, witness: with `maxAttempts = 5`, five hits leave 0 retries and a locked limiter, and a
sixth hit changes neither. -/
theorem hits_exhaustion_witness :
    ((NewRateLimiter "a" 5 10).RetriesLeft strictCast
      ((NewRateLimiter "a" 5 10).hits strictCast NewMemoryCache [0, 1, 2, 3, 4]).2 5).1
      = (0, none) ∧
    ((NewRateLimiter "a" 5 10).MustLock strictCast
      ((NewRateLimiter "a" 5 10).hits strictCast NewMemoryCache [0, 1, 2, 3, 4]).2 5).1
      = (true, none) ∧
    ((NewRateLimiter "a" 5 10).RetriesLeft strictCast
      ((NewRateLimiter "a" 5 10).hits strictCast NewMemoryCache [0, 1, 2, 3, 4, 5]).2 6).1
      = (0, none) ∧
    ((NewRateLimiter "a" 5 10).MustLock strictCast
      ((NewRateLimiter "a" 5 10).hits strictCast NewMemoryCache [0, 1, 2, 3, 4, 5]).2 6).1
      = (true, none) := by
  have h5 := hits_exhaustion strictCast (NewRateLimiter "a" 5 10) NewMemoryCache 0
    [1, 2, 3, 4] 5 (by simp [NewRateLimiter]) (by simp [NewRateLimiter])
    (by simp [NewRateLimiter]) (by simp [memCache.read, NewMemoryCache]) (by simp)
    (by simp [NewRateLimiter]) (by simp [NewRateLimiter])
  have h6 := hits_exhaustion strictCast (NewRateLimiter "a" 5 10) NewMemoryCache 0
    [1, 2, 3, 4, 5] 6 (by simp [NewRateLimiter]) (by simp [NewRateLimiter])
    (by simp [NewRateLimiter]) (by simp [memCache.read, NewMemoryCache]) (by simp)
    (by simp [NewRateLimiter]) (by simp [NewRateLimiter])
  refine ⟨?_, ?_, ?_, ?_⟩
  · simpa [NewRateLimiter] using h5.2.1
  · simpa [NewRateLimiter] using h5.2.2
  · simpa [NewRateLimiter] using h6.2.1
  · simpa [NewRateLimiter] using h6.2.2

/-! ## Lookups of a key without a live entry -/

theorem read_missing_state (m : memCache) (k : String) (now : Time)
    (h : (m.read k now).1 = none) :
    (m.read k now).2.data k = none ∧
    ∀ k1, k1 ≠ k → (m.read k now).2.data k1 = m.data k1 := by
  cases hk : m.data k with
  | none =>
    rw [read_absent m k now hk]
    exact ⟨hk, fun _ _ => rfl⟩
  | some r =>
    by_cases hl : r.liveAt now
    · rw [read_live m k now r hk hl] at h
      simp at h
    · rw [read_expired m k now r hk hl]
      refine ⟨by simp [mapDelete], ?_⟩
      intro k1 hk1
      simp [mapDelete, hk1]

theorem read_missing_cases (m : memCache) (k : String) (now : Time)
    (h : (m.read k now).1 = none) : m.read k now = (none, (m.read k now).2) := by
  rcases hread : m.read k now with ⟨ro, m1⟩
  rw [hread] at h
  simp only at h
  subst h
  rfl

theorem exists_of_data_none (m : memCache) (k : String) (t : Time) (h : m.data k = none) :
    (m.Exists k t).1 = (false, none) := by
  simp [memCache.Exists, read_absent m k t h]

theorem update_live (m : memCache) (k : String) (v : Value) (now : Time) (r : memRecord)
    (h : m.data k = some r) (hl : r.liveAt now) :
    m.Update k v now = ((true, none), ⟨mapSet m.data k ⟨v, r.expiry⟩⟩) := by
  simp [memCache.Update, read_live m k now r h hl]

theorem update_missing (m : memCache) (k : String) (v : Value) (now : Time)
    (h : (m.read k now).1 = none) :
    m.Update k v now = ((false, none), (m.read k now).2) := by
  have hc := read_missing_cases m k now h
  unfold memCache.Update
  rw [hc]

/-! ## The rate limiter: `Lock` -/

/-- C11: when the limiter's entry is live with record `r`, `Lock` stores the counter 0 under the
expiry of `r`; when the limiter has no live entry, `Lock` stores the counter 0 with expiry
`now + ttl`; in both cases `Lock` returns no error and `MustLock`, read while the entry is
live, returns `true`. -/
theorem lock_forces_zero (lib : CastLib) (l : limiter) (c : memCache) (now t' : Time) :
    (∀ r : memRecord, c.data l.name = some r → r.liveAt now →
      (l.Lock c now).1 = none ∧
      (l.Lock c now).2.data l.name = some ⟨Value.int 0, r.expiry⟩ ∧
      (l.MustLock lib (l.Lock c now).2 now).1 = (true, none) ∧
      (r.liveAt t' → (l.MustLock lib (l.Lock c now).2 t').1 = (true, none))) ∧
    ((c.read l.name now).1 = none →
      (l.Lock c now).1 = none ∧
      (l.Lock c now).2.data l.name = some ⟨Value.int 0, some (now + l.ttl)⟩ ∧
      (t' ≤ now + l.ttl → (l.MustLock lib (l.Lock c now).2 t').1 = (true, none))) := by
  have hnil : Caster.IsNil (NewCaster (Value.int 0)) = false := by
    simp [Caster.IsNil, NewCaster]
  have hint : Caster.Int lib (NewCaster (Value.int 0)) = Except.ok 0 := by
    simp [Caster.Int, NewCaster]
  constructor
  · intro r h hl
    have hu := update_live c l.name (Value.int 0) now r h hl
    have hd : (l.Lock c now).2.data l.name = some ⟨Value.int 0, r.expiry⟩ := by
      simp [limiter.Lock, hu, mapSet]
    have hlock : ∀ t, r.liveAt t → (l.MustLock lib (l.Lock c now).2 t).1 = (true, none) := by
      intro t ht
      have hl2 : (memRecord.mk (Value.int 0) r.expiry).liveAt t :=
        (liveAt_same_expiry ⟨Value.int 0, r.expiry⟩ r t rfl).mpr ht
      rw [mustLock_live lib l _ t _ 0 hd hl2 hnil hint]
      simp
    exact ⟨by simp [limiter.Lock, hu], hd, hlock now hl, hlock t'⟩
  · intro h
    have hu := update_missing c l.name (Value.int 0) now h
    have hd : (l.Lock c now).2.data l.name = some ⟨Value.int 0, some (now + l.ttl)⟩ := by
      simp [limiter.Lock, hu, memCache.Put, mapSet]
    refine ⟨by simp [limiter.Lock, hu, memCache.Put], hd, ?_⟩
    intro ht
    have hl2 : (memRecord.mk (Value.int 0) (some (now + l.ttl))).liveAt t' := by
      simp [memRecord.liveAt, ht]
    rw [mustLock_live lib l _ t' _ 0 hd hl2 hnil hint]
    simp

/-- C11, witness: a limiter with 3 attempts left until time 10 is locked at time 4, and a
fresh one is locked at time 4. -/
theorem lock_forces_zero_witness :
    ((NewRateLimiter "a" 5 10).Lock
        (NewMemoryCache.Put "limiter a" (Value.int64 3) (some 10) 0).2 4).2.data "limiter a"
      = some ⟨Value.int 0, some 10⟩ ∧
    ((NewRateLimiter "a" 5 10).MustLock strictCast
      ((NewRateLimiter "a" 5 10).Lock NewMemoryCache 4).2 4).1 = (true, none) := by
  constructor
  · have h := ((lock_forces_zero strictCast (NewRateLimiter "a" 5 10)
      (NewMemoryCache.Put "limiter a" (Value.int64 3) (some 10) 0).2 4 4).1
      ⟨Value.int64 3, some (0 + 10)⟩
      (by simp [memCache.Put, mapSet, NewRateLimiter]) (by simp [memRecord.liveAt])).2.1
    simpa [NewRateLimiter] using h
  · exact ((lock_forces_zero strictCast (NewRateLimiter "a" 5 10) NewMemoryCache 4 4).2
      (by simp [memCache.read, NewMemoryCache])).2.2 (by simp [NewRateLimiter])

/-! ## The in-memory cache: operations on a missing key -/

/-- C19: for a key `k` without a live entry, `Update(k, v)` returns `(false, nil)`, leaves `k`
without an entry (`Exists(k)` is `false` at every later reading) and changes no other key. -/
theorem update_missing_key (m : memCache) (k : String) (v : Value) (now : Time)
    (h : (m.read k now).1 = none) :
    (m.Update k v now).1 = (false, none) ∧
    (m.Update k v now).2.data k = none ∧
    (∀ t, ((m.Update k v now).2.Exists k t).1 = (false, none)) ∧
    (∀ k1, k1 ≠ k → (m.Update k v now).2.data k1 = m.data k1) := by
  have hu := update_missing m k v now h
  obtain ⟨h1, h2⟩ := read_missing_state m k now h
  rw [hu]
  exact ⟨rfl, h1, fun t => exists_of_data_none _ k t h1, h2⟩

/-- C19, witness: an update of a key of the empty cache, and of an entry that expired. -/
theorem update_missing_key_witness :
    (NewMemoryCache.Update "k" (Value.int 1) 0).1 = (false, none) ∧
    ((NewMemoryCache.Put "k" (Value.int 1) (some 5) 0).2.Update "k" (Value.int 2) 6).2.data "k"
      = none :=
  ⟨(update_missing_key NewMemoryCache "k" (Value.int 1) 0
      (by simp [memCache.read, NewMemoryCache])).1,
    (update_missing_key (NewMemoryCache.Put "k" (Value.int 1) (some 5) 0).2 "k" (Value.int 2) 6
      (by simp [memCache.read, memCache.Put, mapSet])).2.1⟩

theorem modifyNumericValue_missing (lib : CastLib) (m : memCache) (k : String) (delta : Int)
    (op : Int → Int → Int) (now : Time) (h : (m.read k now).1 = none) :
    m.modifyNumericValue lib k delta op now = ((false, none), (m.read k now).2) := by
  have hc := read_missing_cases m k now h
  unfold memCache.modifyNumericValue
  rw [hc]

theorem modifyFloatValue_missing (lib : CastLib) (m : memCache) (k : String) (delta : Float)
    (op : Float → Float → Float) (now : Time) (h : (m.read k now).1 = none) :
    m.modifyFloatValue lib k delta op now = ((false, none), (m.read k now).2) := by
  have hc := read_missing_cases m k now h
  unfold memCache.modifyFloatValue
  rw [hc]

/-- C20: for a key `k` without a live entry, `Increment`, `Decrement`, `IncrementFloat` and
`DecrementFloat` return `(false, nil)`, all leave the same cache, in which `k` has no entry and
every other key has the entry it had. -/
theorem counters_missing_key (lib : CastLib) (m : memCache) (k : String) (delta : Int)
    (fdelta : Float) (now : Time) (h : (m.read k now).1 = none) :
    m.Increment lib k delta now = ((false, none), (m.read k now).2) ∧
    m.Decrement lib k delta now = ((false, none), (m.read k now).2) ∧
    m.IncrementFloat lib k fdelta now = ((false, none), (m.read k now).2) ∧
    m.DecrementFloat lib k fdelta now = ((false, none), (m.read k now).2) ∧
    (m.read k now).2.data k = none ∧
    (∀ k1, k1 ≠ k → (m.read k now).2.data k1 = m.data k1) := by
  obtain ⟨h1, h2⟩ := read_missing_state m k now h
  exact ⟨modifyNumericValue_missing lib m k delta _ now h,
    modifyNumericValue_missing lib m k delta _ now h,
    modifyFloatValue_missing lib m k fdelta _ now h,
    modifyFloatValue_missing lib m k fdelta _ now h, h1, h2⟩

/-- C20, witness: an increment of a key of the empty cache. -/
theorem counters_missing_key_witness :
    NewMemoryCache.Increment strictCast "k" 1 0
      = ((false, none), (NewMemoryCache.read "k" 0).2) :=
  (counters_missing_key strictCast NewMemoryCache "k" 1 0 0
    (by simp [memCache.read, NewMemoryCache])).1

/-! ## The in-memory cache: `Put`, `PutOrUpdate`, `Pull`, `Forget` -/

theorem memCache_ext (a b : memCache) (h : ∀ k, a.data k = b.data k) : a = b := by
  cases a
  cases b
  congr
  funext k
  exact h k

theorem read_other (m : memCache) (k k1 : String) (now : Time) (h : k1 ≠ k) :
    (m.read k now).2.data k1 = m.data k1 := by
  cases hr : (m.read k now).1 with
  | none => exact (read_missing_state m k now hr).2 k1 h
  | some r =>
    cases hk : m.data k with
    | none => rw [read_absent m k now hk]
    | some r0 =>
      by_cases hl : r0.liveAt now
      · rw [read_live m k now r0 hk hl]
      · rw [read_expired m k now r0 hk hl] at hr
        simp at hr

theorem get_live (m : memCache) (k : String) (now : Time) (r : memRecord)
    (h : m.data k = some r) (hl : r.liveAt now) : m.Get k now = ((r.data, none), m) := by
  simp [memCache.Get, read_live m k now r h hl]

/-- C14: `Put(k, v, ttl)` returns nil and leaves under `k` the value `v` with expiry `now + ttl`
(none when `ttl` is nil), whatever was there before; `Get(k)` up to the new expiry returns `v`,
and at every time when `ttl` is nil; the entries of other keys are unchanged. -/
theorem put_get_roundtrip (m : memCache) (k : String) (v : Value) (ttl : Option Duration)
    (now t' : Time) :
    (m.Put k v ttl now).1 = none ∧
    (m.Put k v ttl now).2.data k = some ⟨v, ttl.map (fun d => now + d)⟩ ∧
    (∀ d, ttl = some d → t' ≤ now + d → ((m.Put k v ttl now).2.Get k t').1 = (v, none)) ∧
    (ttl = none → ((m.Put k v ttl now).2.Get k t').1 = (v, none)) ∧
    (∀ k1, k1 ≠ k → (m.Put k v ttl now).2.data k1 = m.data k1) := by
  have hd : (m.Put k v ttl now).2.data k = some ⟨v, ttl.map (fun d => now + d)⟩ := by
    cases ttl <;> simp [memCache.Put, mapSet]
  refine ⟨rfl, hd, ?_, ?_, ?_⟩
  · intro d httl ht
    subst httl
    rw [get_live _ k t' _ hd (by simp [memRecord.liveAt, ht])]
  · intro httl
    subst httl
    rw [get_live _ k t' _ hd (by simp [memRecord.liveAt])]
  · intro k1 hk1
    simp [memCache.Put, mapSet, hk1]

/-- C14, witness: the value of the repository's test, stored for 5 units and read at time 3;
a value stored without ttl and read at time 1000. -/
theorem put_get_roundtrip_witness :
    ((NewMemoryCache.Put "testKey" (Value.string "testValue") (some 5) 0).2.Get "testKey" 3).1
      = (Value.string "testValue", none) ∧
    ((NewMemoryCache.Put "testKey" (Value.string "testValue") none 0).2.Get "testKey" 1000).1
      = (Value.string "testValue", none) :=
  ⟨(put_get_roundtrip NewMemoryCache "testKey" (Value.string "testValue") (some 5) 0 3).2.2.1 5
      rfl (by decide),
    (put_get_roundtrip NewMemoryCache "testKey" (Value.string "testValue") none 0 1000).2.2.2.1
      rfl⟩

/-- C15: when `k` has a live entry `r`, `PutOrUpdate(k, v, ttl)` returns nil and leaves the
cache that `Update(k, v)` leaves (value `v` under the expiry of `r`, `ttl` ignored); when `k`
has no live entry it returns nil and leaves the cache that `Put(k, v, ttl)` leaves. -/
theorem putOrUpdate_cases (m : memCache) (k : String) (v : Value) (ttl : Option Duration)
    (now : Time) :
    (∀ r : memRecord, m.data k = some r → r.liveAt now →
      (m.PutOrUpdate k v ttl now).1 = none ∧
      (m.PutOrUpdate k v ttl now).2 = (m.Update k v now).2 ∧
      (m.PutOrUpdate k v ttl now).2.data k = some ⟨v, r.expiry⟩) ∧
    ((m.read k now).1 = none →
      (m.PutOrUpdate k v ttl now).1 = none ∧
      (m.PutOrUpdate k v ttl now).2 = (m.Put k v ttl now).2) := by
  constructor
  · intro r h hl
    have hu := update_live m k v now r h hl
    refine ⟨by simp [memCache.PutOrUpdate, hu], by simp [memCache.PutOrUpdate, hu], ?_⟩
    simp [memCache.PutOrUpdate, hu, mapSet]
  · intro h
    have hu := update_missing m k v now h
    obtain ⟨_, h2⟩ := read_missing_state m k now h
    refine ⟨by simp [memCache.PutOrUpdate, hu, memCache.Put], ?_⟩
    apply memCache_ext
    intro k1
    by_cases hk1 : k1 = k
    · subst hk1
      simp [memCache.PutOrUpdate, hu, memCache.Put, mapSet]
    · have := h2 k1 hk1
      simp [memCache.PutOrUpdate, hu, memCache.Put, mapSet, hk1, this]

/-- C15, witness: on a live entry the ttl argument 99 is ignored, on the empty cache it is
used. -/
theorem putOrUpdate_cases_witness :
    ((NewMemoryCache.Put "k" (Value.int 1) (some 10) 0).2.PutOrUpdate "k" (Value.int 2)
        (some 99) 4).2.data "k" = some ⟨Value.int 2, some 10⟩ ∧
    (NewMemoryCache.PutOrUpdate "k" (Value.int 2) (some 99) 4).2
      = (NewMemoryCache.Put "k" (Value.int 2) (some 99) 4).2 := by
  constructor
  · have h := ((putOrUpdate_cases (NewMemoryCache.Put "k" (Value.int 1) (some 10) 0).2 "k"
      (Value.int 2) (some 99) 4).1 ⟨Value.int 1, some (0 + 10)⟩
      (by simp [memCache.Put, mapSet]) (by simp [memRecord.liveAt])).2.2
    simpa using h
  · exact ((putOrUpdate_cases NewMemoryCache "k" (Value.int 2) (some 99) 4).2
      (by simp [memCache.read, NewMemoryCache])).2

/-- C16: `Pull(k)` returns what `Get(k)` returns in the same cache, with a nil error; afterwards
`k` has no entry (`Exists(k)` is `false` at every later reading) and every other key has the
entry it had. -/
theorem pull_is_get_then_forget (m : memCache) (k : String) (now : Time) :
    (m.Pull k now).1 = (m.Get k now).1 ∧
    (m.Pull k now).1.2 = none ∧
    (m.Pull k now).2.data k = none ∧
    (∀ t, ((m.Pull k now).2.Exists k t).1 = (false, none)) ∧
    (∀ k1, k1 ≠ k → (m.Pull k now).2.data k1 = m.data k1) := by
  have hget : m.Get k now = (((m.Get k now).1.1, none), (m.read k now).2) := by
    unfold memCache.Get
    rcases m.read k now with ⟨ro, m1⟩
    cases ro <;> rfl
  have hpull : m.Pull k now
      = (((m.Get k now).1.1, none), ⟨mapDelete (m.read k now).2.data k⟩) := by
    unfold memCache.Pull
    rw [hget]
    simp [memCache.Forget]
  have hd : (m.Pull k now).2.data k = none := by
    rw [hpull]
    simp [mapDelete]
  refine ⟨?_, by rw [hpull], hd, fun t => exists_of_data_none _ k t hd, ?_⟩
  · rw [hpull]
    conv_rhs => rw [hget]
  · intro k1 hk1
    rw [hpull]
    simp [mapDelete, hk1, read_other m k k1 now hk1]

/-- C16, witness: pulling a stored value returns it and removes it; the other key stays. -/
theorem pull_is_get_then_forget_witness :
    (((NewMemoryCache.Put "a" (Value.int 1) none 0).2.Put "b" (Value.int 2) none 0).2.Pull
        "a" 1).2.data "b"
      = ((NewMemoryCache.Put "a" (Value.int 1) none 0).2.Put "b" (Value.int 2) none 0).2.data
        "b" :=
  (pull_is_get_then_forget
    ((NewMemoryCache.Put "a" (Value.int 1) none 0).2.Put "b" (Value.int 2) none 0).2
    "a" 1).2.2.2.2 "b" (by decide)

/-- C17: `Forget(k)` returns nil in every cache (also without an entry for `k`); afterwards
`Exists(k)` is `false`, every other key has the entry it had, and a second `Forget(k)` returns
nil and leaves the cache as it is. -/
theorem forget_idempotent (m : memCache) (k : String) :
    (m.Forget k).1 = none ∧
    (∀ t, ((m.Forget k).2.Exists k t).1 = (false, none)) ∧
    (∀ k1, k1 ≠ k → (m.Forget k).2.data k1 = m.data k1) ∧
    (m.Forget k).2.Forget k = (none, (m.Forget k).2) := by
  refine ⟨rfl, ?_, ?_, ?_⟩
  · intro t
    exact exists_of_data_none _ k t (by simp [memCache.Forget, mapDelete])
  · intro k1 hk1
    simp [memCache.Forget, mapDelete, hk1]
  · have : ((m.Forget k).2.Forget k).2 = (m.Forget k).2 := by
      apply memCache_ext
      intro k1
      by_cases hk1 : k1 = k <;> simp [memCache.Forget, mapDelete, hk1]
    exact Prod.ext rfl this

/-- C17, witness: forgetting a key of the empty cache leaves the other keys alone. -/
theorem forget_idempotent_witness :
    (NewMemoryCache.Forget "k").2.data "j" = NewMemoryCache.data "j" :=
  (forget_idempotent NewMemoryCache "k").2.2.1 "j" (by decide)

/-! ## The in-memory cache: `TTL` -/

theorem satDuration_of_range (x : Int) (h1 : -(2 ^ 63) ≤ x) (h2 : x ≤ 2 ^ 63 - 1) :
    satDuration x = x := by
  unfold satDuration
  rw [min_eq_left h2, max_eq_right h1]

theorem ttl_live_expiry (m : memCache) (k : String) (now later : Time) (r : memRecord)
    (e : Time) (h : m.data k = some r) (he : r.expiry = some e) (hl : ¬ e < now) :
    m.TTL k now later = ((satDuration (e - later), none), m) := by
  have hlive : r.liveAt now := by
    unfold memRecord.liveAt
    rw [he]
    exact hl
  simp [memCache.TTL, read_live m k now r h hlive, he]

theorem satDuration_le (x d : Int) (hd : 0 ≤ d) (hx : x ≤ d) : satDuration x ≤ d := by
  unfold satDuration
  have hp : (0 : Int) < 2 ^ 63 := by norm_num
  exact max_le (by linarith) (le_trans (min_le_left _ _) hx)

theorem satDuration_neg (x : Int) (hx : x < 0) : satDuration x < 0 := by
  unfold satDuration
  have hp : (0 : Int) < 2 ^ 63 := by norm_num
  exact max_lt (by linarith) (lt_of_le_of_lt (min_le_left _ _) hx)

/-- C18 (as amended): `TTL(k)` returns 0 with a nil error when `k` has no live entry at the
clock reading `now` of its lookup, the sentinel `math.MaxInt64` when the live entry has no
expiry, and otherwise `expiry - later`, where `later` is the second clock reading, taken by
`time.Until` (the difference being a `Duration`); for an entry stored by `Put(k, v, d)` at time
`t` with `0 ≤ d`, still present at the lookup, `TTL(k) ≤ d`, and `0 ≤ TTL(k)` when the expiry
has not passed at `later`, while `TTL(k) < 0` when the expiry falls between the two
readings. -/
theorem ttl_cases (m : memCache) (k : String) (now later : Time) :
    ((m.read k now).1 = none → (m.TTL k now later).1 = (0, none)) ∧
    (∀ r : memRecord, m.data k = some r → r.expiry = none →
      (m.TTL k now later).1 = (2 ^ 63 - 1, none)) ∧
    (∀ (r : memRecord) (e : Time), m.data k = some r → r.expiry = some e → ¬ e < now →
      -(2 ^ 63) ≤ e - later → e - later ≤ 2 ^ 63 - 1 →
      (m.TTL k now later).1 = (e - later, none)) ∧
    (∀ (m0 : memCache) (v : Value) (d : Duration) (t : Time),
      m.data k = (m0.Put k v (some d) t).2.data k → 0 ≤ d → d < 2 ^ 63 →
      t ≤ now → now ≤ later → now ≤ t + d →
      (m.TTL k now later).1.2 = none ∧
      (m.TTL k now later).1.1 ≤ d ∧
      (later ≤ t + d →
        (m.TTL k now later).1.1 = t + d - later ∧ 0 ≤ (m.TTL k now later).1.1) ∧
      (t + d < later → (m.TTL k now later).1.1 < 0)) := by
  refine ⟨?_, ?_, ?_, ?_⟩
  · intro h
    have hc := read_missing_cases m k now h
    unfold memCache.TTL
    rw [hc]
  · intro r h he
    have hlive : r.liveAt now := by
      unfold memRecord.liveAt
      rw [he]
      trivial
    simp [memCache.TTL, read_live m k now r h hlive, he]
  · intro r e h he hl h1 h2
    rw [ttl_live_expiry m k now later r e h he hl, satDuration_of_range _ h1 h2]
  · intro m0 v d t h hd0 hd1 ht hnl hlive
    have hk : m.data k = some ⟨v, some (t + d)⟩ := by
      rw [h]
      simp [memCache.Put, mapSet]
    have hl : ¬ t + d < now := by
      intro hlt2
      linarith
    have hT := ttl_live_expiry m k now later _ (t + d) hk rfl hl
    have hp : (2 : Int) ^ 63 = 9223372036854775808 := by norm_num
    rw [hT]
    refine ⟨rfl, satDuration_le _ d hd0 (by linarith), ?_, ?_⟩
    · intro hlt
      have hs : satDuration (t + d - later) = t + d - later :=
        satDuration_of_range _ (by rw [hp]; linarith) (by rw [hp]; rw [hp] at hd1; linarith)
      simp only
      rw [hs]
      exact ⟨rfl, by linarith⟩
    · intro hlt
      exact satDuration_neg _ (by linarith)

/-- C18, witness: the entry of the repository's test, stored for 2 units at time 0 and asked
for its TTL at time 1 (both clock readings equal). -/
theorem ttl_cases_witness :
    ((NewMemoryCache.Put "ttlKey" (Value.string "ttlValue") (some 2) 0).2.TTL "ttlKey" 1 1).1.1
      = 0 + 2 - 1 ∧
    (NewMemoryCache.TTL "ttlKey" 1 1).1 = (0, none) :=
  ⟨(((ttl_cases (NewMemoryCache.Put "ttlKey" (Value.string "ttlValue") (some 2) 0).2
      "ttlKey" 1 1).2.2.2 NewMemoryCache (Value.string "ttlValue") 2 0 rfl
      (by decide) (by decide) (by decide) (by decide) (by decide)).2.2.1 (by decide)).1,
    (ttl_cases NewMemoryCache "ttlKey" 1 1).1 (by simp [memCache.read, NewMemoryCache])⟩

/-- C18, counterexample: an entry stored at time 0 for 5 units is still present at time 5
(`Exists` returns `true`); `TTL`, whose lookup reads the clock at 5 and whose `time.Until`
reads it at 6, returns `-1`, where the claim demands `0 ≤ TTL(k)`. -/
theorem ttl_negative_counterexample :
    ((NewMemoryCache.Put "k" (Value.string "v") (some 5) 0).2.Exists "k" 5).1 = (true, none) ∧
    ((NewMemoryCache.Put "k" (Value.string "v") (some 5) 0).2.TTL "k" 5 6).1 = (-1, none) := by
  constructor
  · simp [memCache.Exists, memCache.read, memCache.Put, mapSet, NewMemoryCache]
  · simp [memCache.TTL, memCache.read, memCache.Put, mapSet, NewMemoryCache, satDuration]

/-! ## Verification codes -/

theorem verification_get_string (lib : CastLib) (v : verification) (c : memCache) (now : Time)
    (r : memRecord) (s : String) (h : c.data v.name = some r) (hl : r.liveAt now)
    (hs : r.data = Value.string s) : v.Get lib c now = ((s, none), c) := by
  simp [verification.Get, cast_live c v.name now r h hl, hs, Caster.IsNil, Caster.String,
    NewCaster]

theorem verification_get_missing (lib : CastLib) (v : verification) (c : memCache) (now : Time)
    (h : (c.read v.name now).1 = none) :
    v.Get lib c now = (("", none), (c.read v.name now).2) := by
  simp [verification.Get, cast_missing c v.name now h, Caster.IsNil, NewCaster]

theorem validate_string (lib : CastLib) (v : verification) (c : memCache) (code : String)
    (now : Time) (r : memRecord) (s : String) (h : c.data v.name = some r) (hl : r.liveAt now)
    (hs : r.data = Value.string s) :
    v.Validate lib c code now = ((decide (s ≠ "" ∧ code ≠ "" ∧ s = code), none), c) := by
  unfold verification.Validate
  rw [verification_get_string lib v c now r s h hl hs]
  by_cases h1 : s = ""
  · simp [h1]
  · by_cases h2 : code = ""
    · simp [h2]
    · simp [h1, h2]

theorem validate_missing (lib : CastLib) (v : verification) (c : memCache) (code : String)
    (now : Time) (h : (c.read v.name now).1 = none) :
    v.Validate lib c code now = ((false, none), (c.read v.name now).2) := by
  unfold verification.Validate
  rw [verification_get_missing lib v c now h]
  simp

theorem set_stores (v : verification) (c : memCache) (x : String) (now : Time) :
    (v.Set c x now).1 = none ∧
    ∃ e, (v.Set c x now).2.data v.name = some ⟨Value.string x, e⟩ ∧
      (e = some (now + v.ttl) ∨ ∃ r, c.data v.name = some r ∧ r.liveAt now ∧ e = r.expiry) := by
  cases hr : (c.read v.name now).1 with
  | none =>
    have hu := update_missing c v.name (Value.string x) now hr
    refine ⟨by simp [verification.Set, hu, memCache.Put], some (now + v.ttl), ?_, Or.inl rfl⟩
    simp [verification.Set, hu, memCache.Put, mapSet]
  | some r0 =>
    cases hk : c.data v.name with
    | none =>
      rw [read_absent c v.name now hk] at hr
      simp at hr
    | some r =>
      by_cases hl : r.liveAt now
      · have hu := update_live c v.name (Value.string x) now r hk hl
        refine ⟨by simp [verification.Set, hu], r.expiry, ?_, Or.inr ⟨r, rfl, hl, rfl⟩⟩
        simp [verification.Set, hu, mapSet]
      · rw [read_expired c v.name now r hk hl] at hr
        simp at hr

/-- C12: when the managed entry is live and holds the string `s`, `Validate(code)` returns a nil
error and `true` exactly when `s` and `code` are non-empty and equal; when there is no live
entry it returns `false` with a nil error; after `Set(x)` with `x` non-empty the entry holds
`x` and, while it is live, `Validate(x)` is `true`; after `Clear` every `Validate` is `false`
with a nil error. -/
theorem validate_iff (lib : CastLib) (v : verification) (c : memCache) (code : String)
    (now t' : Time) :
    (∀ (r : memRecord) (s : String), c.data v.name = some r → r.liveAt now →
      r.data = Value.string s →
      (v.Validate lib c code now).1 = (decide (s ≠ "" ∧ code ≠ "" ∧ s = code), none)) ∧
    ((c.read v.name now).1 = none → (v.Validate lib c code now).1 = (false, none)) ∧
    (∀ x : String, x ≠ "" →
      ∃ e, (v.Set c x now).2.data v.name = some ⟨Value.string x, e⟩ ∧
        (e = some (now + v.ttl) ∨ ∃ r, c.data v.name = some r ∧ r.liveAt now ∧ e = r.expiry) ∧
        ((memRecord.mk (Value.string x) e).liveAt t' →
          (v.Validate lib (v.Set c x now).2 x t').1 = (true, none))) ∧
    (∀ t, (v.Validate lib (v.Clear c).2 code t).1 = (false, none)) := by
  refine ⟨?_, ?_, ?_, ?_⟩
  · intro r s h hl hs
    rw [validate_string lib v c code now r s h hl hs]
  · intro h
    rw [validate_missing lib v c code now h]
  · intro x hx
    obtain ⟨_, e, hd, hor⟩ := set_stores v c x now
    refine ⟨e, hd, hor, ?_⟩
    intro hl
    rw [validate_string lib v _ x t' _ x hd hl rfl]
    simp [hx]
  · intro t
    have hd : (v.Clear c).2.data v.name = none := by
      simp [verification.Clear, memCache.Forget, mapDelete]
    rw [validate_missing lib v _ code t (by rw [read_absent _ _ t hd])]

/-- C12, witness: the code of the repository's test is stored; the same code validates, the
empty code does not, and nothing validates in the empty cache. -/
theorem validate_iff_witness :
    ((NewVerification "test" 600).Validate strictCast
      (NewMemoryCache.Put "verify test" (Value.string "123456") (some 600) 0).2 "123456" 1).1
      = (true, none) ∧
    ((NewVerification "test" 600).Validate strictCast
      (NewMemoryCache.Put "verify test" (Value.string "123456") (some 600) 0).2 "" 1).1
      = (false, none) ∧
    ((NewVerification "test" 600).Validate strictCast NewMemoryCache "123456" 1).1
      = (false, none) := by
  refine ⟨?_, ?_, ?_⟩
  · have h := (validate_iff strictCast (NewVerification "test" 600)
      (NewMemoryCache.Put "verify test" (Value.string "123456") (some 600) 0).2 "123456" 1 1).1
      ⟨Value.string "123456", some (0 + 600)⟩ "123456"
      (by simp [memCache.Put, mapSet, NewVerification]) (by simp [memRecord.liveAt]) rfl
    simpa using h
  · have h := (validate_iff strictCast (NewVerification "test" 600)
      (NewMemoryCache.Put "verify test" (Value.string "123456") (some 600) 0).2 "" 1 1).1
      ⟨Value.string "123456", some (0 + 600)⟩ "123456"
      (by simp [memCache.Put, mapSet, NewVerification]) (by simp [memRecord.liveAt]) rfl
    simpa using h
  · exact (validate_iff strictCast (NewVerification "test" 600) NewMemoryCache "123456"
      1 1).2.1 (by simp [memCache.read, NewMemoryCache])

theorem randomString_digits (draws : Nat → Nat) (n : Nat) :
    (randomString draws n "0123456789").2 = none ∧
    (randomString draws n "0123456789").1.length = n ∧
    ∀ ch ∈ (randomString draws n "0123456789").1.data, ch.isDigit = true := by
  have hlen : "0123456789".length = 10 := by decide
  have hdig : ∀ j, j < 10 →
      ("0123456789".data.getD j (Char.ofNat 0)).isDigit = true := by
    intro j hj
    interval_cases j <;> decide
  have hr : randomString draws n "0123456789"
      = (String.mk ((List.range n).map
          (fun i => "0123456789".data.getD (draws i % 10) (Char.ofNat 0))), none) := by
    unfold randomString
    rw [hlen]
    simp
  rw [hr]
  refine ⟨rfl, by simp [String.length], ?_⟩
  intro ch hch
  simp only [List.mem_map, List.mem_range] at hch
  obtain ⟨i, _, hi⟩ := hch
  rw [← hi]
  exact hdig _ (Nat.mod_lt _ (by decide))

theorem generate_eq (v : verification) (c : memCache) (draws : Nat → Nat) (n : Nat)
    (now : Time) :
    v.Generate c draws n now
      = (((randomString draws n "0123456789").1, none),
          (v.Set c (randomString draws n "0123456789").1 now).2) := by
  have h1 := (randomString_digits draws n).1
  have h2 := (set_stores v c (randomString draws n "0123456789").1 now).1
  unfold verification.Generate
  rcases hrs : randomString draws n "0123456789" with ⟨code, err⟩
  rw [hrs] at h1 h2
  simp only at h1 h2
  subst h1
  rcases hset : v.Set c code now with ⟨err2, c1⟩
  rw [hset] at h2
  simp only at h2
  subst h2
  simp [hset]

/-- C13: for every length `n` and every sequence of outcomes of the random source,
`Generate(n)` returns, with a nil error, a string of exactly `n` characters that are all
digits, and leaves that string in the managed entry; while the entry is live `Get` returns the
string and, for `n ≥ 1`, `Validate` of it is `true`. -/
theorem generate_numeric_code (lib : CastLib) (v : verification) (c : memCache)
    (draws : Nat → Nat) (n : Nat) (now t' : Time) :
    (v.Generate c draws n now).1.2 = none ∧
    (v.Generate c draws n now).1.1.length = n ∧
    (∀ ch ∈ (v.Generate c draws n now).1.1.data, ch.isDigit = true) ∧
    ∃ e, (v.Generate c draws n now).2.data v.name
        = some ⟨Value.string (v.Generate c draws n now).1.1, e⟩ ∧
      (e = some (now + v.ttl) ∨ ∃ r, c.data v.name = some r ∧ r.liveAt now ∧ e = r.expiry) ∧
      ((memRecord.mk (Value.string (v.Generate c draws n now).1.1) e).liveAt t' →
        (v.Get lib (v.Generate c draws n now).2 t').1
          = ((v.Generate c draws n now).1.1, none) ∧
        (1 ≤ n → (v.Validate lib (v.Generate c draws n now).2
          (v.Generate c draws n now).1.1 t').1 = (true, none))) := by
  obtain ⟨_, hlen, hdig⟩ := randomString_digits draws n
  obtain ⟨_, e, hd, hor⟩ := set_stores v c (randomString draws n "0123456789").1 now
  rw [generate_eq v c draws n now]
  refine ⟨rfl, hlen, hdig, e, hd, hor, ?_⟩
  intro hl
  refine ⟨by rw [verification_get_string lib v _ t' _ _ hd hl rfl], ?_⟩
  intro hn
  have hne : (randomString draws n "0123456789").1 ≠ "" := by
    intro h0
    rw [h0] at hlen
    simp at hlen
    omega
  rw [validate_string lib v _ _ t' _ _ hd hl rfl]
  simp [hne]

/-- C13, witness: six draws 0, 1, 2, 3, 4, 5 on the empty cache give the code "012345",
which `Get` returns afterwards. -/
theorem generate_numeric_code_witness :
    ((NewVerification "test" 600).Generate NewMemoryCache (fun i => i) 6 0).1.1.length = 6 ∧
    ((NewVerification "test" 600).Generate NewMemoryCache (fun i => i) 6 0).1.1 = "012345" := by
  refine ⟨(generate_numeric_code strictCast (NewVerification "test" 600) NewMemoryCache
    (fun i => i) 6 0 0).2.1, ?_⟩
  rw [generate_eq]
  decide

/-! ## The rate limiter: a counter that does not read as an integer -/

/-- C22 (as amended): when the limiter's entry is live and holds a value that is not `nil` and
whose conversion to an integer fails with `err`, `MustLock` returns `true` together with the
non-nil error `err`. -/
theorem mustLock_unreadable (lib : CastLib) (l : limiter) (c : memCache) (now : Time)
    (r : memRecord) (err : Error) (h : c.data l.name = some r) (hl : r.liveAt now)
    (hnil : Caster.IsNil (NewCaster r.data) = false)
    (hint : Caster.Int lib (NewCaster r.data) = Except.error err) :
    (l.MustLock lib c now).1 = (true, some err) := by
  simp [limiter.MustLock, cast_live c l.name now r h hl, hnil, hint]

/-- C22, witness: the entry holds the string "abc" and the `cast` package converts no
string. -/
theorem mustLock_unreadable_witness :
    ((NewRateLimiter "a" 5 10).MustLock strictCast
      (NewMemoryCache.Put "limiter a" (Value.string "abc") (some 10) 0).2 3).1
      = (true, some Error.cast) :=
  mustLock_unreadable strictCast (NewRateLimiter "a" 5 10)
    (NewMemoryCache.Put "limiter a" (Value.string "abc") (some 10) 0).2 3
    ⟨Value.string "abc", some (0 + 10)⟩ Error.cast
    (by simp [memCache.Put, mapSet, NewRateLimiter]) (by simp [memRecord.liveAt])
    (by simp [Caster.IsNil, NewCaster]) (by simp [Caster.Int, NewCaster, strictCast])

/-- C22, counterexample: with the string "not-a-number" in the limiter's entry `MustLock`
returns `true` with the error, where the claim demands `false`. -/
theorem mustLock_unreadable_counterexample :
    ((NewRateLimiter "a" 5 10).MustLock strictCast
      (NewMemoryCache.Put "limiter a" (Value.string "not-a-number") (some 10) 0).2 3).1.1
      = true ∧
    ((NewRateLimiter "a" 5 10).MustLock strictCast
      (NewMemoryCache.Put "limiter a" (Value.string "not-a-number") (some 10) 0).2 3).1.2
      = some Error.cast := by
  constructor <;>
    simp [limiter.MustLock, memCache.Cast, memCache.Get, memCache.read, memCache.Put, mapSet,
      NewRateLimiter, NewMemoryCache, Caster.IsNil, Caster.Int, NewCaster, strictCast]

/-! ## The rate limiter: `maxAttempts = 0` -/

/-- C26: on a limiter without a live entry the first `Hit` stores the `uint32` difference
`maxAttempts - 1` with expiry `now + ttl`; for `maxAttempts = 0` that is `4294967295`, and while
the entry is live `MustLock` returns `false` and `RetriesLeft` returns `4294967295`; for
`1 ≤ maxAttempts < 2^32` it is the integer `maxAttempts - 1`. -/
theorem hit_zero_attempts (lib : CastLib) (l : limiter) (c : memCache) (now t' : Time)
    (hfresh : (c.read l.name now).1 = none) :
    (l.maxAttempts = 0 →
      (l.Hit lib c now).2.data l.name
        = some ⟨Value.uint32 4294967295, some (now + l.ttl)⟩ ∧
      (t' ≤ now + l.ttl →
        (l.MustLock lib (l.Hit lib c now).2 t').1 = (false, none) ∧
        (l.RetriesLeft lib (l.Hit lib c now).2 t').1 = (4294967295, none))) ∧
    (1 ≤ l.maxAttempts → l.maxAttempts < 2 ^ 32 →
      (l.Hit lib c now).2.data l.name
        = some ⟨Value.uint32 (l.maxAttempts - 1), some (now + l.ttl)⟩) := by
  obtain ⟨_, hd⟩ := hit_fresh lib l c now hfresh
  constructor
  · intro h0
    have hw : wrapUint32 ((l.maxAttempts : Int) - 1) = 4294967295 := by
      rw [h0]
      decide
    rw [hw] at hd
    refine ⟨hd, ?_⟩
    intro ht
    have hl : (memRecord.mk (Value.uint32 4294967295) (some (now + l.ttl))).liveAt t' := by
      simp [memRecord.liveAt, ht]
    have hnil : Caster.IsNil (NewCaster (Value.uint32 4294967295)) = false := by
      simp [Caster.IsNil, NewCaster]
    have hint : Caster.Int lib (NewCaster (Value.uint32 4294967295))
        = Except.ok 4294967295 := by
      simp [Caster.Int, NewCaster]
    constructor
    · rw [mustLock_live lib l _ t' _ _ hd hl hnil hint]
      simp
    · rw [retriesLeft_live lib l _ t' _ _ hd hl hnil hint]
      have : wrapUint32 (if (4294967295 : Int) < 0 then 0 else 4294967295) = 4294967295 := by
        decide
      rw [this]
  · intro h1 h2
    have hw : wrapUint32 ((l.maxAttempts : Int) - 1) = l.maxAttempts - 1 := by
      rw [wrapUint32_of_range _ (by omega) (by omega)]
      omega
    rw [hw] at hd
    exact hd

/-- C26, witness: a limiter with `maxAttempts = 0` is hit once at time 0 and read at time 1. -/
theorem hit_zero_attempts_witness :
    ((NewRateLimiter "a" 0 10).RetriesLeft strictCast
      ((NewRateLimiter "a" 0 10).Hit strictCast NewMemoryCache 0).2 1).1
      = (4294967295, none) :=
  (((hit_zero_attempts strictCast (NewRateLimiter "a" 0 10) NewMemoryCache 0 1
    (by simp [memCache.read, NewMemoryCache])).1 rfl).2 (by simp [NewRateLimiter])).2

/-! ## The in-memory cache: `Get` against `Exists` -/

theorem read_none_iff (m : memCache) (k : String) (now : Time) :
    (m.read k now).1 = none ↔
      (m.data k = none ∨ ∃ r, m.data k = some r ∧ ¬ r.liveAt now) := by
  cases hk : m.data k with
  | none => simp [read_absent m k now hk]
  | some r =>
    by_cases hl : r.liveAt now
    · simp [read_live m k now r hk hl, hl]
    · simp [read_expired m k now r hk hl, hl]

/-- C25 (as amended): `Exists(k)` returns `false` exactly when `k` is missing or expired;
`Get(k)` returns the absent result (nil value, nil error) exactly when `k` is missing or expired
or its live entry holds the value `nil`; for a live entry with a value other than `nil`, `Get`
returns that value and `Exists` returns `true`. -/
theorem get_absent_iff (m : memCache) (k : String) (now : Time) :
    ((m.Exists k now).1 = (false, none) ↔
      (m.data k = none ∨ ∃ r, m.data k = some r ∧ ¬ r.liveAt now)) ∧
    ((m.Get k now).1 = (Value.nil, none) ↔
      ((m.data k = none ∨ ∃ r, m.data k = some r ∧ ¬ r.liveAt now) ∨
        ∃ r, m.data k = some r ∧ r.liveAt now ∧ r.data = Value.nil)) ∧
    (∀ r : memRecord, m.data k = some r → r.liveAt now → r.data ≠ Value.nil →
      (m.Get k now).1 = (r.data, none) ∧ (m.Get k now).1 ≠ (Value.nil, none) ∧
      (m.Exists k now).1 = (true, none)) := by
  cases hk : m.data k with
  | none =>
    have hr := read_absent m k now hk
    simp [memCache.Exists, memCache.Get, hr]
  | some r =>
    by_cases hl : r.liveAt now
    · have hr := read_live m k now r hk hl
      simp [memCache.Exists, memCache.Get, hr, hl]
    · have hr := read_expired m k now r hk hl
      simp [memCache.Exists, memCache.Get, hr, hl]

/-- C25, witness: a stored string is returned by `Get` and reported by `Exists`. -/
theorem get_absent_iff_witness :
    ((NewMemoryCache.Put "k" (Value.string "v") none 0).2.Get "k" 1).1
      = (Value.string "v", none) ∧
    ((NewMemoryCache.Put "k" (Value.string "v") none 0).2.Exists "k" 1).1 = (true, none) := by
  have h := (get_absent_iff (NewMemoryCache.Put "k" (Value.string "v") none 0).2 "k" 1).2.2
    ⟨Value.string "v", none⟩ (by simp [memCache.Put, mapSet]) (by simp [memRecord.liveAt])
    (by simp)
  exact ⟨h.1, h.2.2⟩

/-- C25, counterexample: after `Put(k, nil, nil)` the key exists (`Exists` returns `true`) and
`Get` returns the absent result, where the claim demands that the two agree. -/
theorem get_nil_value_counterexample :
    ((NewMemoryCache.Put "k" Value.nil none 0).2.Get "k" 1).1 = (Value.nil, none) ∧
    ((NewMemoryCache.Put "k" Value.nil none 0).2.Exists "k" 1).1 = (true, none) := by
  constructor <;>
    simp [memCache.Get, memCache.Exists, memCache.read, memCache.Put, mapSet, NewMemoryCache]

/-! ## The Redis queue -/

theorem pushAll_eq (xs q : List String) : redisQueue.pushAll q xs = xs.reverse ++ q := by
  induction xs generalizing q with
  | nil => simp [redisQueue.pushAll]
  | cons x xs ih =>
    simp [redisQueue.pushAll, redisQueue.Push, Redis.LPush, ih]

/-- The code on any pushes: after `x1, ..., xn, y` are pushed onto the empty queue `Pull` and
`Cast` return the item pushed last, and after `y, x1, ..., xn` are pushed `Pop` returns the item
pushed first. -/
theorem pull_pop_after_pushes (xs : List String) (y : String) :
    (redisQueue.Pull (redisQueue.pushAll [] (xs ++ [y]))).1 = (Value.string y, none) ∧
    (redisQueue.Cast (redisQueue.pushAll [] (xs ++ [y]))).1
      = (NewCaster (Value.string y), none) ∧
    (redisQueue.Pop (redisQueue.pushAll [] (y :: xs))).1 = (Value.string y, none) := by
  refine ⟨?_, ?_, ?_⟩
  · simp [pushAll_eq, redisQueue.Pull, Redis.LPop]
  · simp [pushAll_eq, redisQueue.Cast, redisQueue.Pull, Redis.LPop]
  · simp [pushAll_eq, redisQueue.Pop, Redis.RPop]

/-- C23, the failing input: after "x1", "x2", "x3" are pushed in that order onto the empty
queue, `Pull` and `Cast` return "x3" (the item pushed last, not the first) and `Pop` returns
"x1" (the item pushed first, not the last); with the single item "x1" both return it. -/
theorem queue_order_reversed :
    (redisQueue.Pull (redisQueue.pushAll [] ["x1", "x2", "x3"])).1
      = (Value.string "x3", none) ∧
    (redisQueue.Cast (redisQueue.pushAll [] ["x1", "x2", "x3"])).1
      = (NewCaster (Value.string "x3"), none) ∧
    (redisQueue.Pop (redisQueue.pushAll [] ["x1", "x2", "x3"])).1
      = (Value.string "x1", none) ∧
    (redisQueue.Pull (redisQueue.pushAll [] ["x1"])).1 = (Value.string "x1", none) ∧
    (redisQueue.Pop (redisQueue.pushAll [] ["x1"])).1 = (Value.string "x1", none) := by
  refine ⟨?_, ?_, ?_, ?_, ?_⟩ <;>
    simp [redisQueue.pushAll, redisQueue.Push, Redis.LPush, redisQueue.Pull, redisQueue.Cast,
      redisQueue.Pop, Redis.LPop, Redis.RPop]

/-! ## The in-memory cache: the lazy deletion against a concurrent `Put` -/

/-- The two atomic sections of `ReadCall.step`, run back to back, are the sequential
`memCache.read`. -/
theorem readStep_readStep_eq_read (m : memCache) (key : String) (now : Time) :
    ReadCall.step key now (ReadCall.step key now m ReadCall.start).2
        (ReadCall.step key now m ReadCall.start).1
      = (ReadCall.returned (m.read key now).1, (m.read key now).2) := by
  cases hk : m.data key with
  | none => simp [ReadCall.step, memCache.read, hk]
  | some r =>
    obtain ⟨v, expiry⟩ := r
    cases expiry with
    | none => simp [ReadCall.step, memCache.read, hk]
    | some e =>
      by_cases he : e < now <;> simp [ReadCall.step, memCache.read, hk, he]

/-- The code on any such interleaving: the reader sees the entry of `key` expired, a `Put`
stores a new entry, then the reader takes the write lock; the key has no entry afterwards. -/
theorem read_evicts_fresh_put (m : memCache) (key : String) (now tput : Time) (r : memRecord)
    (e : Time) (v : Value) (ttl : Option Duration) (h : m.data key = some r)
    (he : r.expiry = some e) (hlt : e < now) :
    (ReadCall.step key now m ReadCall.start).1 = ReadCall.sawExpired ∧
    (ReadCall.step key now
      ((ReadCall.step key now m ReadCall.start).2.Put key v ttl tput).2
      (ReadCall.step key now m ReadCall.start).1).2.data key = none := by
  obtain ⟨v0, expiry⟩ := r
  simp only at he
  subst he
  simp [ReadCall.step, h, hlt, mapDelete]

/-- C24, the failing input: the entry of "k" expired at time 5; at time 10 a reader looks it up
and sees it expired, then `Put("k", "fresh", 100)` stores a live entry, then the reader takes
the write lock: it deletes the fresh entry, and `Get("k")` returns nil although the entry would
live until 110.  When the reader finishes before the `Put`, the fresh value is there. -/
theorem read_race_evicts_fresh_entry :
    ((ReadCall.step "k" 10
      ((ReadCall.step "k" 10 (NewMemoryCache.Put "k" (Value.string "old") (some 5) 0).2
        ReadCall.start).2.Put "k" (Value.string "fresh") (some 100) 10).2
      (ReadCall.step "k" 10 (NewMemoryCache.Put "k" (Value.string "old") (some 5) 0).2
        ReadCall.start).1).2.Get "k" 10).1 = (Value.nil, none) ∧
    ((((NewMemoryCache.Put "k" (Value.string "old") (some 5) 0).2.read "k" 10).2.Put "k"
      (Value.string "fresh") (some 100) 10).2.Get "k" 10).1 = (Value.string "fresh", none) := by
  constructor <;>
    simp [ReadCall.step, memCache.Get, memCache.read, memCache.Put, mapSet, mapDelete,
      NewMemoryCache]

/-! ## Keys addressed by limiters and verification managers -/

theorem append_left_cancel_string (p x y : String) (h : p ++ x = p ++ y) : x = y := by
  have hd := String.ext_iff.mp h
  rw [String.data_append, String.data_append] at hd
  exact String.ext (List.append_cancel_left hd)

theorem slugify_single_data (s : String) :
    (slugify [s]).data = replaceRuns (fun c => c == '-') false
      (replaceRuns spaceChar false (s.data.filter slugChar)) := by
  simp [slugify, String.intercalate, String.intercalate.go]

theorem slugify_limiter_data (a : String) :
    (slugify ["limiter " ++ a]).data = 'l' :: 'i' :: 'm' :: 'i' :: 't' :: 'e' :: 'r' ::
      replaceRuns (fun c => c == '-') false
        (replaceRuns spaceChar false (a.data.filter slugChar)) := by
  rw [slugify_single_data, String.data_append]
  rfl

theorem slugify_verify_data (a : String) :
    (slugify ["verify " ++ a]).data = 'v' :: 'e' :: 'r' :: 'i' :: 'f' :: 'y' ::
      replaceRuns (fun c => c == '-') false
        (replaceRuns spaceChar false (a.data.filter slugChar)) := by
  rw [slugify_single_data, String.data_append]
  rfl

theorem cacheKey_eq_iff (p x y : String) :
    cacheKey p [x] = cacheKey p [y] ↔ slugify [x] = slugify [y] := by
  unfold cacheKey
  by_cases hp : slugify [p] ≠ ""
  · rw [if_pos hp, if_pos hp]
    constructor
    · intro h
      exact append_left_cancel_string _ _ _ h
    · intro h
      rw [h]
  · rw [if_neg hp, if_neg hp]

theorem replaceRuns_of_none (p : Char → Bool) (l : List Char) :
    ∀ b : Bool, (∀ c ∈ l, p c = false) → replaceRuns p b l = l := by
  induction l with
  | nil => intro b _; rfl
  | cons c cs ih =>
    intro b h
    have hc : p c = false := h c (by simp)
    have hcs : ∀ d ∈ cs, p d = false := fun d hd => h d (by simp [hd])
    simp [replaceRuns, hc, ih false hcs]

theorem alnum_not_space (c : Char) (h : c.isAlphanum = true) : spaceChar c = false := by
  cases hs : spaceChar c with
  | false => rfl
  | true =>
    exfalso
    simp only [spaceChar, Bool.or_eq_true, beq_iff_eq] at hs
    rcases hs with (((h1 | h1) | h1) | h1) | h1 <;> (subst h1; revert h; decide)

theorem alnum_not_dash (c : Char) (h : c.isAlphanum = true) : (c == '-') = false := by
  cases hs : (c == '-') with
  | false => rfl
  | true =>
    exfalso
    have h1 : c = '-' := by simpa using hs
    subst h1
    revert h
    decide

theorem slug_of_alnum (l : List Char) (h : ∀ c ∈ l, c.isAlphanum = true) :
    replaceRuns (fun c => c == '-') false (replaceRuns spaceChar false (l.filter slugChar))
      = l := by
  have hf : l.filter slugChar = l := by
    rw [List.filter_eq_self]
    intro c hc
    simp [slugChar, h c hc]
  rw [hf, replaceRuns_of_none spaceChar l false (fun c hc => alnum_not_space c (h c hc)),
    replaceRuns_of_none _ l false (fun c hc => alnum_not_dash c (h c hc))]

theorem limiter_name_injective (a b : String) (m1 m2 : Nat) (t1 t2 : Duration)
    (h : (NewRateLimiter a m1 t1).name = (NewRateLimiter b m2 t2).name) : a = b :=
  append_left_cancel_string "limiter " a b h

theorem verification_name_injective (a b : String) (t1 t2 : Duration)
    (h : (NewVerification a t1).name = (NewVerification b t2).name) : a = b :=
  append_left_cancel_string "verify " a b h

theorem limiter_name_ne_verification_name (a b : String) (m1 : Nat) (t1 t2 : Duration) :
    (NewRateLimiter a m1 t1).name ≠ (NewVerification b t2).name := by
  intro h
  have hd := String.ext_iff.mp h
  simp only [NewRateLimiter, NewVerification, String.data_append] at hd
  have h0 : ("limiter ".data ++ a.data).head? = ("verify ".data ++ b.data).head? := by
    rw [hd]
  have h1 : ("limiter ".data ++ a.data).head? = some 'l' := rfl
  have h2 : ("verify ".data ++ b.data).head? = some 'v' := rfl
  rw [h1, h2] at h0
  exact absurd h0 (by decide)

theorem limiter_slug_ne_verification_slug (a b : String) :
    slugify ["limiter " ++ a] ≠ slugify ["verify " ++ b] := by
  intro h
  have hd := String.ext_iff.mp h
  rw [slugify_limiter_data, slugify_verify_data] at hd
  have h0 : ('l' : Char) = 'v' := (List.cons.inj hd).1
  exact absurd h0 (by decide)

theorem limiter_slug_alnum_injective (a b : String)
    (ha : ∀ c ∈ a.data, c.isAlphanum = true) (hb : ∀ c ∈ b.data, c.isAlphanum = true)
    (h : slugify ["limiter " ++ a] = slugify ["limiter " ++ b]) : a = b := by
  have hd := String.ext_iff.mp h
  rw [slugify_limiter_data, slugify_limiter_data, slug_of_alnum a.data ha,
    slug_of_alnum b.data hb] at hd
  simp only [List.cons.injEq, true_and] at hd
  exact String.ext hd

theorem verify_slug_alnum_injective (a b : String)
    (ha : ∀ c ∈ a.data, c.isAlphanum = true) (hb : ∀ c ∈ b.data, c.isAlphanum = true)
    (h : slugify ["verify " ++ a] = slugify ["verify " ++ b]) : a = b := by
  have hd := String.ext_iff.mp h
  rw [slugify_verify_data, slugify_verify_data, slug_of_alnum a.data ha,
    slug_of_alnum b.data hb] at hd
  simp only [List.cons.injEq, true_and] at hd
  exact String.ext hd

/-- C21 (as amended): on the in-memory cache, which uses the key as it is, limiters of distinct
names address different keys, likewise verification managers of distinct names; on both
backends a limiter and a verification manager never address the same key; on the Redis cache,
whose keys go through `prefixer`, two limiters (two verification managers) address the same key
exactly when `slugify` gives their keys the same slug, so that distinct names made of ASCII
letters and digits only address different keys. -/
theorem key_ownership (a b : String) (m1 m2 : Nat) (t1 t2 : Duration) (r : redisCache) :
    (a ≠ b → (NewRateLimiter a m1 t1).name ≠ (NewRateLimiter b m2 t2).name) ∧
    (a ≠ b → (NewVerification a t1).name ≠ (NewVerification b t2).name) ∧
    (NewRateLimiter a m1 t1).name ≠ (NewVerification b t2).name ∧
    r.prefixer (NewRateLimiter a m1 t1).name ≠ r.prefixer (NewVerification b t2).name ∧
    (r.prefixer (NewRateLimiter a m1 t1).name = r.prefixer (NewRateLimiter b m2 t2).name ↔
      slugify [(NewRateLimiter a m1 t1).name] = slugify [(NewRateLimiter b m2 t2).name]) ∧
    (r.prefixer (NewVerification a t1).name = r.prefixer (NewVerification b t2).name ↔
      slugify [(NewVerification a t1).name] = slugify [(NewVerification b t2).name]) ∧
    ((∀ c ∈ a.data, c.isAlphanum = true) → (∀ c ∈ b.data, c.isAlphanum = true) → a ≠ b →
      r.prefixer (NewRateLimiter a m1 t1).name ≠ r.prefixer (NewRateLimiter b m2 t2).name ∧
      r.prefixer (NewVerification a t1).name ≠ r.prefixer (NewVerification b t2).name) := by
  refine ⟨?_, ?_, limiter_name_ne_verification_name a b m1 t1 t2, ?_,
    cacheKey_eq_iff _ _ _, cacheKey_eq_iff _ _ _, ?_⟩
  · intro hab h
    exact hab (limiter_name_injective a b m1 m2 t1 t2 h)
  · intro hab h
    exact hab (verification_name_injective a b t1 t2 h)
  · intro h
    exact limiter_slug_ne_verification_slug a b ((cacheKey_eq_iff _ _ _).mp h)
  · intro ha hb hab
    constructor
    · intro h
      exact hab (limiter_slug_alnum_injective a b ha hb ((cacheKey_eq_iff _ _ _).mp h))
    · intro h
      exact hab (verify_slug_alnum_injective a b ha hb ((cacheKey_eq_iff _ _ _).mp h))

/-- C21, witness: the names "alice" and "bob" on the Redis cache with the prefix "test". -/
theorem key_ownership_witness :
    (redisCache.mk "test").prefixer (NewRateLimiter "alice" 5 10).name
      ≠ (redisCache.mk "test").prefixer (NewRateLimiter "bob" 5 10).name :=
  ((key_ownership "alice" "bob" 5 5 10 10 (redisCache.mk "test")).2.2.2.2.2.2
    (by decide) (by decide) (by decide)).1

/-- C21, counterexample: on the Redis cache with the prefix "test" the limiters of the distinct
names "a!" and "a" address the same key "test:limitera", as do the verification managers of
these names. -/
theorem key_ownership_counterexample :
    "a!" ≠ "a" ∧
    (redisCache.mk "test").prefixer (NewRateLimiter "a!" 5 10).name
      = (redisCache.mk "test").prefixer (NewRateLimiter "a" 5 10).name ∧
    (redisCache.mk "test").prefixer (NewRateLimiter "a" 5 10).name = "test:limitera" ∧
    (redisCache.mk "test").prefixer (NewVerification "a!" 10).name
      = (redisCache.mk "test").prefixer (NewVerification "a" 10).name := by
  refine ⟨by decide, by decide, by decide, by decide⟩

end Cache
